import Mathlib

/-!
# A shallow embedding of the `gogl` B-tree (package `btree`)

This file models `btree/btree.go` and `btree/verify.go` as pure Lean
functions and proves properties of the model.

Modelling conventions:

* Go's mutable, pointer-linked `node` graph is modelled as the value tree
  `Node K V`; in-place mutation becomes rebuilding the tree along the
  recorded root-to-node path (Go's `treePath` of `(parent, childIndex)`
  pairs becomes the list of child indices from the root).
* `panic` sites are modelled with `Option`: a function that can hit an
  explicit panic returns `none` there.  Plain Go slice indexing (which the
  code only performs in bounds when the structural invariants hold) is
  modelled with `getD`-style total lookups, except in the key-search
  descent (`getFromNode` / `findNodeForDeletion`) where an out-of-range
  child access is modelled explicitly.
* Go's `slices.BinarySearchFunc(xs, t, cmp)` is modelled by its documented
  contract on sorted slices: it returns the smallest index `i` with
  `cmp(xs[i], t) >= 0` together with whether `cmp(xs[i], t) == 0`.
* `tee` (the minimum degree) is a Go `int`; it is modelled as `Nat`
  (negative degrees are out of scope of every claim, and Go's `2*tee-1`
  appears as truncated `Nat` subtraction).
* Go's generic zero value `*new(V)` is modelled as `(default : V)`.
* `insertNonFull` recurses into a child of a freshly split node, which is
  not structurally smaller for Lean; it therefore takes explicit fuel.
  The public `Insert` supplies `height + 1` fuel, which is always enough
  because each recursive call descends one tree level (see
  `insertNonFull_some_of_height_lt`).
-/

namespace GoglBTree

/-! ## Definitions: the embedding of `btree.go` and `verify.go`,
specification-side predicates, and concrete scenario inputs -/

/-- Result contract of Go's `slices.BinarySearchFunc` over `n.keys` with
`nodeKeyCmp` (which compares only the `key` fields): the insertion index
`i` (smallest index whose element compares `>= 0` against the target key,
or the length if there is none) and whether the element at `i` is an
exact match. -/
def binarySearchKeys (cmp : K → K → Int) (ks : List (K × V)) (key : K) :
    Nat × Bool :=
  let i := ks.findIdx fun a => decide (0 ≤ cmp a.1 key)
  match ks[i]? with
  | some a => (i, decide (cmp a.1 key = 0))
  | none => (i, false)

/-- Go's `node[K, V]`: sorted `keys` (pairs of key and value, Go's
`nodeKey`), `children` (one more than `keys` for internal nodes), and the
`leaf` flag. -/
inductive Node (K V : Type) where
  | mk (keys : List (K × V)) (children : List (Node K V)) (leaf : Bool)

/-- The `keys` field. -/
def Node.keys : Node K V → List (K × V)
  | .mk ks _ _ => ks

/-- The `children` field. -/
def Node.children : Node K V → List (Node K V)
  | .mk _ cs _ => cs

/-- The `leaf` field. -/
def Node.leaf : Node K V → Bool
  | .mk _ _ l => l

instance : Inhabited (Node K V) := ⟨.mk [] [] true⟩

/-- Replace the `keys` field. -/
def Node.withKeys (n : Node K V) (ks : List (K × V)) : Node K V :=
  .mk ks n.children n.leaf

/-- Replace the `children` field. -/
def Node.withChildren (n : Node K V) (cs : List (Node K V)) : Node K V :=
  .mk n.keys cs n.leaf

/-- Go's `BTree[K, V]`: the comparison function, the root node and the
minimum degree `tee`. -/
structure BTree (K V : Type) where
  cmp : K → K → Int
  root : Node K V
  tee : Nat

/-- Go's `defaultTee`. -/
def defaultTee : Nat := 10

/-- Go's `NewWithTee`: builds a tree with an empty leaf root.  Note that
the Go function performs no validation of `tee` whatsoever. -/
def NewWithTee (cmp : K → K → Int) (tee : Nat) : BTree K V :=
  { cmp := cmp
    root := .mk [] [] true
    tee := tee }

/-- Go's `New`: `NewWithTee` with the default branching factor. -/
def New (cmp : K → K → Int) : BTree K V :=
  NewWithTee cmp defaultTee

/-- Go's `nodeIsFull`: a node is full when it has at least `2*tee-1`
keys. -/
def nodeIsFull (tee : Nat) (n : Node K V) : Bool :=
  decide (2 * tee - 1 ≤ n.keys.length)

mutual

/-- Go's `getFromNode`: binary-search the node's keys; on an exact match
return the value, on a miss return the zero value at a leaf or descend
into the child at the insertion index.  `none` models the index-out-of-
range panic Go would hit if that child does not exist. -/
def getFromNode [Inhabited K] [Inhabited V] (cmp : K → K → Int) (key : K) :
    Node K V → Option (V × Bool)
  | .mk ks cs leaf =>
    match binarySearchKeys cmp ks key with
    | (i, true) => some ((ks.getD i default).2, true)
    | (i, false) =>
      if leaf then some (default, false)
      else getFromChild cmp key i cs

/-- Walk to the `i`-th child and continue `getFromNode` there; running
off the end of the child list is Go's out-of-range panic. -/
def getFromChild [Inhabited K] [Inhabited V] (cmp : K → K → Int) (key : K) :
    Nat → List (Node K V) → Option (V × Bool)
  | _, [] => none
  | 0, c :: _ => getFromNode cmp key c
  | i + 1, _ :: cs => getFromChild cmp key i cs

end

/-- Go's `Get`. -/
def BTree.Get [Inhabited K] [Inhabited V] (bt : BTree K V) (key : K) : Option (V × Bool) :=
  getFromNode bt.cmp key bt.root

mutual

/-- Height of a node: `1 +` the maximal height of its children (so a
leaf has height `1`).  Not part of the Go code; used only to compute
sufficient fuel for `insertNonFull`. -/
def Node.height : Node K V → Nat
  | .mk _ cs _ => 1 + heightList cs

/-- Maximal height over a list of nodes (0 for the empty list). -/
def heightList : List (Node K V) → Nat
  | [] => 0
  | c :: cs => max c.height (heightList cs)

end

/-- Go's `splitChild`: split the full child `y = n.children[i]` of the
non-full node `n` around its median key.  `none` models the
`panic(...)` that fires when `n` is full or `y` is not full.  The
`make`/`copy` pair for `z.keys` is `take (tee-1)` of `drop tee` (the
panic guard guarantees `y` has at least `2*tee-1` keys, so the copy
fills `z.keys` exactly); likewise `z.children` is `take tee` of
`drop tee`. -/
def splitChild [Inhabited K] [Inhabited V] (tee : Nat) (n : Node K V) (i : Nat) :
    Option (Node K V) :=
  let y := n.children.getD i default
  if nodeIsFull tee n || !nodeIsFull tee y then
    none
  else
    let zkeys := (y.keys.drop tee).take (tee - 1)
    let medianKey := y.keys.getD (tee - 1) default
    let ykeys := y.keys.take (tee - 1)
    let zchildren := if y.leaf then [] else (y.children.drop tee).take tee
    let ychildren := if y.leaf then y.children else y.children.take tee
    let y' : Node K V := .mk ykeys ychildren y.leaf
    let z : Node K V := .mk zkeys zchildren y.leaf
    some (.mk (n.keys.insertIdx i medianKey)
      ((n.children.set i y').insertIdx (i + 1) z) n.leaf)

/-- Go's `insertNonFull`: insert `kv` into the subtree rooted at `n`,
splitting a full child before descending into it.  `none` models the
`panic("insertNonFull into a full node")` (and exhausted fuel, which
never happens when the fuel exceeds the height, see
`insertNonFull_some_of_height_lt`). -/
def insertNonFull [Inhabited K] [Inhabited V] (cmp : K → K → Int) (tee : Nat) :
    Nat → Node K V → K × V → Option (Node K V)
  | 0, _, _ => none
  | fuel + 1, n, kv =>
    if nodeIsFull tee n then
      none
    else
      match binarySearchKeys cmp n.keys kv.1 with
      | (i, true) => some (n.withKeys (n.keys.set i kv))
      | (i, false) =>
        if n.leaf then
          some (n.withKeys (n.keys.insertIdx i kv))
        else if nodeIsFull tee (n.children.getD i default) then
          match splitChild tee n i with
          | none => none
          | some n' =>
            let i' := if 0 < cmp kv.1 (n'.keys.getD i default).1 then i + 1 else i
            match insertNonFull cmp tee fuel (n'.children.getD i' default) kv with
            | none => none
            | some c => some (n'.withChildren (n'.children.set i' c))
        else
          match insertNonFull cmp tee fuel (n.children.getD i default) kv with
          | none => none
          | some c => some (n.withChildren (n.children.set i c))

/-- Go's `Insert`: if the root is full, split it below a fresh root
first, then insert into the (now non-full) root. -/
def BTree.Insert [Inhabited K] [Inhabited V] (bt : BTree K V) (key : K) (value : V) :
    Option (BTree K V) :=
  if nodeIsFull bt.tee bt.root then
    let newRoot : Node K V := .mk [] [bt.root] false
    match splitChild bt.tee newRoot 0 with
    | none => none
    | some r =>
      (insertNonFull bt.cmp bt.tee (r.height + 1) r (key, value)).map
        fun r' => { bt with root := r' }
  else
    (insertNonFull bt.cmp bt.tee (bt.root.height + 1) bt.root (key, value)).map
      fun r' => { bt with root := r' }

/-- Result of Go's `findNodeForDeletion`: the node holding the key (as
the child-index path from the root plus the node value and the key
index), `notFound` for Go's `nil` result, or `panicked` for an
out-of-range child access. -/
inductive FindResult (K V : Type) where
  | panicked
  | notFound
  | found (path : List Nat) (n : Node K V) (idx : Nat)

mutual

/-- Go's `findNodeForDeletion`: binary-search each node, descending into
the child at the insertion index on a miss, and recording the descent
path (Go records `(parent, childIndex)` pairs; the value model records
the child indices, from which every parent is recovered from the
root). -/
def findNodeForDeletion (cmp : K → K → Int) (key : K) :
    Node K V → List Nat → FindResult K V
  | .mk ks cs leaf, path =>
    match binarySearchKeys cmp ks key with
    | (i, true) => .found path (.mk ks cs leaf) i
    | (i, false) =>
      if leaf then .notFound
      else findInChild cmp key (path ++ [i]) i cs

/-- Walk to the `i`-th child and continue the search there. -/
def findInChild (cmp : K → K → Int) (key : K) (path : List Nat) :
    Nat → List (Node K V) → FindResult K V
  | _, [] => .panicked
  | 0, c :: _ => findNodeForDeletion cmp key c path
  | i + 1, _ :: cs => findInChild cmp key path i cs

end

mutual

/-- Go's `rightmostDescendant`, as the child-index path it appends: keep
taking the last child until a leaf is reached. -/
def rightmostPath : Node K V → List Nat
  | .mk _ _ true => []
  | .mk _ cs false => (cs.length - 1) :: rightmostPathList cs

/-- Continue `rightmostPath` at the last element of the child list. -/
def rightmostPathList : List (Node K V) → List Nat
  | [] => []
  | [c] => rightmostPath c
  | _ :: c :: cs => rightmostPathList (c :: cs)

end

/-- The node reached from `n` by following a child-index path (Go
follows the recorded pointers instead). -/
def nodeAt [Inhabited K] [Inhabited V] : Node K V → List Nat → Node K V
  | n, [] => n
  | n, i :: rest => nodeAt (n.children.getD i default) rest

/-- Rebuild the tree with `f` applied to the node at the child-index
path; this is the value-level counterpart of Go mutating a node
in place through a pointer. -/
def modifyAt [Inhabited K] [Inhabited V] :
    Node K V → List Nat → (Node K V → Node K V) → Node K V
  | n, [], f => f n
  | n, i :: rest, f =>
    n.withChildren (n.children.set i (modifyAt (n.children.getD i default) rest f))

/-- The body of Go's `rebalance` for the underflow candidate
`n = p.children[i]` with parent `p`: the early return when `n` is not
underfull, the two rotations and the two merges, rebuilt as a new parent
node.  The boolean records whether the merge branch ran (Go then either
replaces the root or recurses up; `rebalancePath` and the `Delete`
wrapper reproduce that part). -/
def rebalanceLocal [Inhabited K] [Inhabited V] (tee : Nat) (p : Node K V) (i : Nat) :
    Node K V × Bool :=
  let n := p.children.getD i default
  if tee - 1 ≤ n.keys.length then
    (p, false)
  else
    let hasRight := i + 1 < p.children.length
    let right := p.children.getD (i + 1) default
    let hasLeft := 0 < i
    let left := p.children.getD (i - 1) default
    if hasRight && decide (tee ≤ right.keys.length) then
      -- rotate left: separator down to the end of n, right sibling's
      -- first key up into the parent, first child pointer across
      let n' : Node K V := .mk (n.keys ++ [p.keys.getD i default])
        (if n.leaf then n.children else n.children ++ [right.children.getD 0 default])
        n.leaf
      let right' : Node K V := .mk (right.keys.drop 1)
        (if n.leaf then right.children else right.children.drop 1) right.leaf
      ((p.withKeys (p.keys.set i (right.keys.getD 0 default))).withChildren
        ((p.children.set i n').set (i + 1) right'), false)
    else if hasLeft && decide (tee ≤ left.keys.length) then
      -- rotate right: separator down to the front of n, left sibling's
      -- last key up into the parent; for internal nodes the Go code then
      -- assigns `leftSibling.children = leftSibling.children[len-1:]`,
      -- keeping ONLY the just-moved last child pointer
      let n' : Node K V := .mk (n.keys.insertIdx 0 (p.keys.getD (i - 1) default))
        (if n.leaf then n.children
         else n.children.insertIdx 0 (left.children.getD (left.children.length - 1) default))
        n.leaf
      let left' : Node K V := .mk (left.keys.take (left.keys.length - 1))
        (if n.leaf then left.children else left.children.drop (left.children.length - 1))
        left.leaf
      ((p.withKeys (p.keys.set (i - 1) (left.keys.getD (left.keys.length - 1) default))).withChildren
        ((p.children.set i n').set (i - 1) left'), false)
    else if !hasLeft then
      -- merge the right sibling into n, sandwiching the separator
      let n' : Node K V := .mk (n.keys ++ [p.keys.getD i default] ++ right.keys)
        (if n.leaf then n.children else n.children ++ right.children) n.leaf
      ((p.withKeys (p.keys.eraseIdx i)).withChildren
        ((p.children.set i n').eraseIdx (i + 1)), true)
    else
      -- merge n into the left sibling, sandwiching the separator
      let left' : Node K V := .mk (left.keys ++ [p.keys.getD (i - 1) default] ++ n.keys)
        (if n.leaf then left.children else left.children ++ n.children) left.leaf
      ((p.withKeys (p.keys.eraseIdx (i - 1))).withChildren
        ((p.children.set (i - 1) left').eraseIdx i), true)

/-- Go's bottom-up `rebalance` along a recorded path, rebuilt
top-down over the child-index path: run the local step at the deepest
parent, and after a merge repeat it one level up (Go recurses with
`path[:len(path)-1]`).  The empty path is Go's
`panic("rebalance on root")`, modelled as `none`; the boolean reports
whether the top-level step merged (`Delete` uses it for root
replacement). -/
def rebalancePath [Inhabited K] [Inhabited V] (tee : Nat) :
    Node K V → List Nat → Option (Node K V × Bool)
  | _, [] => none
  | p, [i] => some (rebalanceLocal tee p i)
  | p, i :: j :: rest =>
    match rebalancePath tee (p.children.getD i default) (j :: rest) with
    | none => none
    | some (c', merged) =>
      let p' := p.withChildren (p.children.set i c')
      if merged then some (rebalanceLocal tee p' i) else some (p', false)

/-- Shared tail of Go's `Delete` and `rebalance`: rebalance along the
path, and if the step at the root merged and left the root empty, make
the merged node (the root's only remaining child) the new root. -/
def finishRebalance [Inhabited K] [Inhabited V] (bt : BTree K V)
    (root' : Node K V) (path : List Nat) : Option (BTree K V) :=
  match rebalancePath bt.tee root' path with
  | none => none
  | some (r, merged) =>
    if merged && r.keys.isEmpty then
      some { bt with root := r.children.getD 0 default }
    else
      some { bt with root := r }

/-- Go's `Delete`: locate the key; delete in place at a leaf, or swap in
the rightmost descendant's last key and delete that from its leaf; then
rebalance bottom-up along the recorded path unless the changed node is
the root.  `none` models a run-time panic (out-of-range child access
during the search, or `rebalance` reaching the root). -/
def BTree.Delete [Inhabited K] [Inhabited V] (bt : BTree K V) (key : K) :
    Option (BTree K V) :=
  match findNodeForDeletion bt.cmp key bt.root [] with
  | .panicked => none
  | .notFound => some bt
  | .found path n idx =>
    if n.leaf then
      let root' := modifyAt bt.root path fun m => m.withKeys (m.keys.eraseIdx idx)
      if path.isEmpty then some { bt with root := root' }
      else finishRebalance bt root' path
    else
      -- replace n.keys[idx] by the last key of the rightmost descendant
      -- d of n.children[idx], drop that key from d, and rebalance d
      let sub := n.children.getD idx default
      let dRel := rightmostPath sub
      let fullpath := path ++ idx :: dRel
      let d := nodeAt sub dRel
      let dLast := d.keys.getD (d.keys.length - 1) default
      let root' := modifyAt bt.root path fun m => m.withKeys (m.keys.set idx dLast)
      let root'' := modifyAt root' fullpath fun m =>
        m.withKeys (m.keys.take (m.keys.length - 1))
      finishRebalance bt root'' fullpath

/-- One invariant violation reported by `verify.go`, mirroring its error
cases (the payloads carry the counts or heights from the Go error
message; the node pointer of the message has no value-level analogue). -/
inductive Violation where
  | tooManyKeys (count : Nat)
  | tooFewKeys (count : Nat)
  | rootNoKeys
  | keysNotSorted
  | childCountMismatch (keyCount childCount : Nat)
  | orderHigh
  | orderLow
  | unequalLeafHeights (compacted : List Nat)
deriving DecidableEq, Repr

/-- Go's `slices.IsSortedFunc` under `nodeKeyCmp`: adjacent elements
compare `<= 0` on their key fields. -/
def isSortedKeys (cmp : K → K → Int) : List (K × V) → Bool
  | [] => true
  | [_] => true
  | a :: b :: rest => decide (cmp a.1 b.1 ≤ 0) && isSortedKeys cmp (b :: rest)

/-- The two-sided ordering loop of `verifyNode`: for each key `k` at
index `j`, every key of `children[j]` must compare `<= k` and every key
of `children[j+1]` must compare `>= k`; the first offence is returned.
(`verifyNode` only runs this after the child-count check has passed, so
the child list is one longer than the key list.) -/
def checkKeyChildOrder (cmp : K → K → Int) :
    List (K × V) → List (Node K V) → Option Violation
  | [], _ => none
  | _ :: _, [] => none
  | _ :: _, [_] => none
  | k :: ks, c0 :: c1 :: cs =>
    if c0.keys.any fun kj => decide (0 < cmp kj.1 k.1) then
      some .orderHigh
    else if c1.keys.any fun kj => decide (0 < cmp k.1 kj.1) then
      some .orderLow
    else
      checkKeyChildOrder cmp ks (c1 :: cs)

/-- Go's `verifyNode`: the per-node checks in source order, returning
the first violation (each failed check `return`s immediately).
`isRoot` models Go's pointer comparison `n == bt.root`. -/
def verifyNode (cmp : K → K → Int) (tee : Nat) (isRoot : Bool) (n : Node K V) :
    Option Violation :=
  if 2 * tee - 1 < n.keys.length then
    some (.tooManyKeys n.keys.length)
  else if !isRoot && decide (n.keys.length < tee - 1) then
    some (.tooFewKeys n.keys.length)
  else if isRoot && decide (n.keys.length < 1) then
    some .rootNoKeys
  else if !isSortedKeys cmp n.keys then
    some .keysNotSorted
  else if !n.leaf && decide (n.children.length ≠ n.keys.length + 1) then
    some (.childCountMismatch n.keys.length n.children.length)
  else if !n.leaf then
    checkKeyChildOrder cmp n.keys n.children
  else
    none

mutual

/-- The per-node errors collected by `verify`'s loop over
`nodesPreOrder` (the root first, then each subtree left to right). -/
def verifyErrs (cmp : K → K → Int) (tee : Nat) (isRoot : Bool) :
    Node K V → List Violation
  | .mk ks cs leaf =>
    (match verifyNode cmp tee isRoot (.mk ks cs leaf) with
     | some e => [e]
     | none => []) ++ verifyErrsList cmp tee cs

/-- Pre-order error collection over a child list (never the root). -/
def verifyErrsList (cmp : K → K → Int) (tee : Nat) :
    List (Node K V) → List Violation
  | [] => []
  | c :: cs => verifyErrs cmp tee false c ++ verifyErrsList cmp tee cs

end

mutual

/-- The `visit` closure of `verify`: the heights of all leaves, in
visit order (an internal node contributes only its children). -/
def leafHeights : Node K V → Nat → List Nat
  | .mk _ _ true, h => [h]
  | .mk _ cs false, h => leafHeightsList cs (h + 1)

/-- `leafHeights` over a child list. -/
def leafHeightsList : List (Node K V) → Nat → List Nat
  | [], _ => []
  | c :: cs, h => leafHeights c h ++ leafHeightsList cs h

end

/-- Tail worker for `compact`, remembering the previously kept value. -/
def compactAfter (prev : Nat) : List Nat → List Nat
  | [] => []
  | b :: rest => if b = prev then compactAfter prev rest else b :: compactAfter b rest

/-- Go's `slices.Compact`: collapse runs of consecutive equal
elements, keeping the first of each run. -/
def compact : List Nat → List Nat
  | [] => []
  | a :: rest => a :: compactAfter a rest

/-- Go's `verify`: collect the per-node violations over the pre-order
walk; if there are any, report exactly those; only otherwise compute the
leaf heights and report a violation unless they compact to a single
value.  The empty list is Go's `nil` error. -/
def BTree.verify (bt : BTree K V) : List Violation :=
  let errs := verifyErrs bt.cmp bt.tee true bt.root
  if errs.isEmpty then
    let cp := compact (leafHeights bt.root 0)
    if cp.length ≠ 1 then [.unequalLeafHeights cp] else []
  else
    errs

mutual

/-- All keys stored in a subtree (this node's key fields and,
recursively, its children's). -/
def Node.allKeys : Node K V → List K
  | .mk ks cs _ => ks.map Prod.fst ++ allKeysList cs

/-- `Node.allKeys` over a child list. -/
def allKeysList : List (Node K V) → List K
  | [] => []
  | c :: cs => c.allKeys ++ allKeysList cs

end

mutual

/-- Structural shape of a valid tree, following the spec's data model: a
leaf holds no children, an internal node holds exactly one more child
than keys, recursively. -/
def Node.shapeOk : Node K V → Bool
  | .mk ks cs leaf =>
    (if leaf then cs.isEmpty else cs.length = ks.length + 1) && shapeOkList cs

/-- `Node.shapeOk` over a child list. -/
def shapeOkList : List (Node K V) → Bool
  | [] => true
  | c :: cs => c.shapeOk && shapeOkList cs

end

/-- The comparator used by the repository's tests for integer keys
(`intCmp(a, b) = a - b`). -/
def intCmp (a b : Int) : Int := a - b

/-- One scripted operation against an integer tree. -/
inductive Op where
  | ins (key value : Int)
  | del (key : Int)
deriving DecidableEq

/-- Run a script of operations left to right (`none` as soon as one of
them panics). -/
def applyOps (bt : BTree Int Int) : List Op → Option (BTree Int Int)
  | [] => some bt
  | .ins k v :: rest =>
    match bt.Insert k v with
    | none => none
    | some bt' => applyOps bt' rest
  | .del k :: rest =>
    match bt.Delete k with
    | none => none
    | some bt' => applyOps bt' rest

/-- An empty integer tree with minimum degree 2. -/
def t2 : BTree Int Int := NewWithTee intCmp 2

/-- Thirteen insertions producing the degree-2 tree
`[40] / ([20,30] / [10],[25,27],[35]) ([60,80] / [50],[70],[90,100])`. -/
def rotationInserts : List Op :=
  [ .ins 10 10, .ins 20 20, .ins 30 30, .ins 40 40, .ins 50 50, .ins 60 60,
    .ins 70 70, .ins 80 80, .ins 90 90, .ins 100 100, .ins 25 25, .ins 35 35,
    .ins 27 27 ]

/-- The script whose final deletion forces a rotation from the left
sibling at an internal node: deleting 90 first merges the right
subtree's leaves, underflowing the internal node above them, whose left
sibling `[20,30]` has two keys; the rotate-from-left branch of
`rebalance` then runs with a non-leaf `n`. -/
def rotationScript : List Op :=
  rotationInserts ++ [.del 100, .del 50, .del 70, .del 90]

/-- The same script without its last deletion (the pre-state of the
internal rotate-from-left). -/
def rotationPrefix : List Op :=
  rotationInserts ++ [.del 100, .del 50, .del 70]

/-- Five insertions producing `[20] / [10], [30,40,50]` (the second
child full). -/
def upsertBuildScript : List Op :=
  [ .ins 10 10, .ins 20 20, .ins 30 30, .ins 40 40, .ins 50 50 ]

/-- `upsertBuildScript` followed by the re-insertion of key 40 with a
new value.  Descending, `insertNonFull` pre-splits the full child,
promoting the median `(40, 40)`; the new key compares equal (not
greater) to the promoted median, so the code descends into the left
half and inserts a duplicate there. -/
def upsertMedianScript : List Op :=
  upsertBuildScript ++ [.ins 40 999]

/-- Three insertions filling the degree-2 root. -/
def overwriteBuildScript : List Op :=
  [ .ins 1 1, .ins 2 2, .ins 3 3 ]

/-- `overwriteBuildScript` followed by an overwrite of the existing
key 2, which finds the root full and splits it first. -/
def overwriteScript : List Op :=
  overwriteBuildScript ++ [.ins 2 999]

/-- Six insertions and a deletion producing
`[20,40] / [10],[30],[50]`: a parent whose middle child has both a left
and a right sibling, all three at minimum occupancy. -/
def mergeBuildScript : List Op :=
  [ .ins 10 10, .ins 20 20, .ins 30 30, .ins 40 40, .ins 50 50, .ins 60 60,
    .del 60 ]

/-- `mergeBuildScript` followed by the deletion of 30, which empties
the middle child and forces a merge while both siblings exist. -/
def mergeScript : List Op :=
  mergeBuildScript ++ [.del 30]

/-- Intermediate tree after step 1 of the `rot` script. -/
def rotT1 : Node Int Int := (.mk [(10, 10)] [] true)

/-- Intermediate tree after step 2 of the `rot` script. -/
def rotT2 : Node Int Int := (.mk [(10, 10), (20, 20)] [] true)

/-- Intermediate tree after step 3 of the `rot` script. -/
def rotT3 : Node Int Int := (.mk [(10, 10), (20, 20), (30, 30)] [] true)

/-- Intermediate tree after step 4 of the `rot` script. -/
def rotT4 : Node Int Int := (.mk [(20, 20)] [(.mk [(10, 10)] [] true), (.mk [(30, 30), (40, 40)] [] true)] false)

/-- Intermediate tree after step 5 of the `rot` script. -/
def rotT5 : Node Int Int := (.mk [(20, 20)] [(.mk [(10, 10)] [] true), (.mk [(30, 30), (40, 40), (50, 50)] [] true)] false)

/-- Intermediate tree after step 6 of the `rot` script. -/
def rotT6 : Node Int Int := (.mk [(20, 20), (40, 40)] [(.mk [(10, 10)] [] true), (.mk [(30, 30)] [] true), (.mk [(50, 50), (60, 60)] [] true)] false)

/-- Intermediate tree after step 7 of the `rot` script. -/
def rotT7 : Node Int Int := (.mk [(20, 20), (40, 40)] [(.mk [(10, 10)] [] true), (.mk [(30, 30)] [] true), (.mk [(50, 50), (60, 60), (70, 70)] [] true)] false)

/-- Intermediate tree after step 8 of the `rot` script. -/
def rotT8 : Node Int Int := (.mk [(20, 20), (40, 40), (60, 60)] [(.mk [(10, 10)] [] true), (.mk [(30, 30)] [] true), (.mk [(50, 50)] [] true), (.mk [(70, 70), (80, 80)] [] true)] false)

/-- Intermediate tree after step 9 of the `rot` script. -/
def rotT9 : Node Int Int := (.mk [(40, 40)] [(.mk [(20, 20)] [(.mk [(10, 10)] [] true), (.mk [(30, 30)] [] true)] false), (.mk [(60, 60)] [(.mk [(50, 50)] [] true), (.mk [(70, 70), (80, 80), (90, 90)] [] true)] false)] false)

/-- Intermediate tree after step 10 of the `rot` script. -/
def rotT10 : Node Int Int := (.mk [(40, 40)] [(.mk [(20, 20)] [(.mk [(10, 10)] [] true), (.mk [(30, 30)] [] true)] false), (.mk [(60, 60), (80, 80)] [(.mk [(50, 50)] [] true), (.mk [(70, 70)] [] true), (.mk [(90, 90), (100, 100)] [] true)] false)] false)

/-- Intermediate tree after step 11 of the `rot` script. -/
def rotT11 : Node Int Int := (.mk [(40, 40)] [(.mk [(20, 20)] [(.mk [(10, 10)] [] true), (.mk [(25, 25), (30, 30)] [] true)] false), (.mk [(60, 60), (80, 80)] [(.mk [(50, 50)] [] true), (.mk [(70, 70)] [] true), (.mk [(90, 90), (100, 100)] [] true)] false)] false)

/-- Intermediate tree after step 12 of the `rot` script. -/
def rotT12 : Node Int Int := (.mk [(40, 40)] [(.mk [(20, 20)] [(.mk [(10, 10)] [] true), (.mk [(25, 25), (30, 30), (35, 35)] [] true)] false), (.mk [(60, 60), (80, 80)] [(.mk [(50, 50)] [] true), (.mk [(70, 70)] [] true), (.mk [(90, 90), (100, 100)] [] true)] false)] false)

/-- Intermediate tree after step 13 of the `rot` script. -/
def rotT13 : Node Int Int := (.mk [(40, 40)] [(.mk [(20, 20), (30, 30)] [(.mk [(10, 10)] [] true), (.mk [(25, 25), (27, 27)] [] true), (.mk [(35, 35)] [] true)] false), (.mk [(60, 60), (80, 80)] [(.mk [(50, 50)] [] true), (.mk [(70, 70)] [] true), (.mk [(90, 90), (100, 100)] [] true)] false)] false)

/-- Intermediate tree after step 14 of the `rot` script. -/
def rotT14 : Node Int Int := (.mk [(40, 40)] [(.mk [(20, 20), (30, 30)] [(.mk [(10, 10)] [] true), (.mk [(25, 25), (27, 27)] [] true), (.mk [(35, 35)] [] true)] false), (.mk [(60, 60), (80, 80)] [(.mk [(50, 50)] [] true), (.mk [(70, 70)] [] true), (.mk [(90, 90)] [] true)] false)] false)

/-- Intermediate tree after step 15 of the `rot` script. -/
def rotT15 : Node Int Int := (.mk [(40, 40)] [(.mk [(20, 20), (30, 30)] [(.mk [(10, 10)] [] true), (.mk [(25, 25), (27, 27)] [] true), (.mk [(35, 35)] [] true)] false), (.mk [(80, 80)] [(.mk [(60, 60), (70, 70)] [] true), (.mk [(90, 90)] [] true)] false)] false)

/-- Intermediate tree after step 16 of the `rot` script. -/
def rotT16 : Node Int Int := (.mk [(40, 40)] [(.mk [(20, 20), (30, 30)] [(.mk [(10, 10)] [] true), (.mk [(25, 25), (27, 27)] [] true), (.mk [(35, 35)] [] true)] false), (.mk [(80, 80)] [(.mk [(60, 60)] [] true), (.mk [(90, 90)] [] true)] false)] false)

/-- Intermediate tree after step 17 of the `rot` script. -/
def rotT17 : Node Int Int := (.mk [(30, 30)] [(.mk [(20, 20)] [(.mk [(35, 35)] [] true)] false), (.mk [(40, 40)] [(.mk [(35, 35)] [] true), (.mk [(60, 60), (80, 80)] [] true)] false)] false)

/-- Intermediate tree after step 1 of the `ed` script. -/
def edT1 : Node Int Int := (.mk [(1, 1)] [] true)

/-- Intermediate tree after step 2 of the `ed` script. -/
def edT2 : Node Int Int := (.mk [] [] true)

/-- Intermediate tree after step 1 of the `ups` script. -/
def upsT1 : Node Int Int := (.mk [(10, 10)] [] true)

/-- Intermediate tree after step 2 of the `ups` script. -/
def upsT2 : Node Int Int := (.mk [(10, 10), (20, 20)] [] true)

/-- Intermediate tree after step 3 of the `ups` script. -/
def upsT3 : Node Int Int := (.mk [(10, 10), (20, 20), (30, 30)] [] true)

/-- Intermediate tree after step 4 of the `ups` script. -/
def upsT4 : Node Int Int := (.mk [(20, 20)] [(.mk [(10, 10)] [] true), (.mk [(30, 30), (40, 40)] [] true)] false)

/-- Intermediate tree after step 5 of the `ups` script. -/
def upsT5 : Node Int Int := (.mk [(20, 20)] [(.mk [(10, 10)] [] true), (.mk [(30, 30), (40, 40), (50, 50)] [] true)] false)

/-- Intermediate tree after step 6 of the `ups` script. -/
def upsT6 : Node Int Int := (.mk [(20, 20), (40, 40)] [(.mk [(10, 10)] [] true), (.mk [(30, 30), (40, 999)] [] true), (.mk [(50, 50)] [] true)] false)

/-- Intermediate tree after step 1 of the `ov` script. -/
def ovT1 : Node Int Int := (.mk [(1, 1)] [] true)

/-- Intermediate tree after step 2 of the `ov` script. -/
def ovT2 : Node Int Int := (.mk [(1, 1), (2, 2)] [] true)

/-- Intermediate tree after step 3 of the `ov` script. -/
def ovT3 : Node Int Int := (.mk [(1, 1), (2, 2), (3, 3)] [] true)

/-- Intermediate tree after step 4 of the `ov` script. -/
def ovT4 : Node Int Int := (.mk [(2, 999)] [(.mk [(1, 1)] [] true), (.mk [(3, 3)] [] true)] false)

/-- Intermediate tree after step 1 of the `mg` script. -/
def mgT1 : Node Int Int := (.mk [(10, 10)] [] true)

/-- Intermediate tree after step 2 of the `mg` script. -/
def mgT2 : Node Int Int := (.mk [(10, 10), (20, 20)] [] true)

/-- Intermediate tree after step 3 of the `mg` script. -/
def mgT3 : Node Int Int := (.mk [(10, 10), (20, 20), (30, 30)] [] true)

/-- Intermediate tree after step 4 of the `mg` script. -/
def mgT4 : Node Int Int := (.mk [(20, 20)] [(.mk [(10, 10)] [] true), (.mk [(30, 30), (40, 40)] [] true)] false)

/-- Intermediate tree after step 5 of the `mg` script. -/
def mgT5 : Node Int Int := (.mk [(20, 20)] [(.mk [(10, 10)] [] true), (.mk [(30, 30), (40, 40), (50, 50)] [] true)] false)

/-- Intermediate tree after step 6 of the `mg` script. -/
def mgT6 : Node Int Int := (.mk [(20, 20), (40, 40)] [(.mk [(10, 10)] [] true), (.mk [(30, 30)] [] true), (.mk [(50, 50), (60, 60)] [] true)] false)

/-- Intermediate tree after step 7 of the `mg` script. -/
def mgT7 : Node Int Int := (.mk [(20, 20), (40, 40)] [(.mk [(10, 10)] [] true), (.mk [(30, 30)] [] true), (.mk [(50, 50)] [] true)] false)

/-- Intermediate tree after step 8 of the `mg` script. -/
def mgT8 : Node Int Int := (.mk [(40, 40)] [(.mk [(10, 10), (20, 20)] [] true), (.mk [(50, 50)] [] true)] false)

mutual

/-- The nodes of a subtree in pre-order, each paired with whether it is
the tree's root (Go's `nodesPreOrder` yields the nodes in this order,
and `verify` distinguishes the root by pointer comparison). -/
def preorderFlagged (isRoot : Bool) : Node K V → List (Node K V × Bool)
  | .mk ks cs leaf => ((.mk ks cs leaf : Node K V), isRoot) :: preorderFlaggedList cs

/-- `preorderFlagged` over a child list (children are never the root). -/
def preorderFlaggedList : List (Node K V) → List (Node K V × Bool)
  | [] => []
  | c :: cs => preorderFlagged false c ++ preorderFlaggedList cs

end

/-- The two-sided ordering invariant as a conjunction: for each key at
index `j`, all keys of child `j` compare `<= 0` to it and it compares
`<= 0` to all keys of child `j+1`. -/
def orderOk (cmp : K → K → Int) : List (K × V) → List (Node K V) → Bool
  | [], _ => true
  | _ :: _, [] => true
  | _ :: _, [_] => true
  | k :: ks, c0 :: c1 :: cs =>
    (c0.keys.all fun kj => decide (cmp kj.1 k.1 ≤ 0))
      && (c1.keys.all fun kj => decide (cmp k.1 kj.1 ≤ 0))
      && orderOk cmp ks (c1 :: cs)

/-- All per-node checks of `verifyNode`, stated as one conjunction:
occupancy upper bound, non-root lower bound, root non-emptiness,
sortedness, and (for internal nodes) the child count and the two-sided
ordering invariant. -/
def nodeChecksOk (cmp : K → K → Int) (tee : Nat) (isRoot : Bool) (n : Node K V) : Bool :=
  decide (n.keys.length ≤ 2 * tee - 1)
    && (isRoot || decide (tee - 1 ≤ n.keys.length))
    && (!isRoot || decide (1 ≤ n.keys.length))
    && isSortedKeys cmp n.keys
    && (n.leaf
        || (decide (n.children.length = n.keys.length + 1)
            && orderOk cmp n.keys n.children))

mutual

/-- The child-count facet of the invariants on its own: every internal
node of the subtree has exactly one more child than keys.  This is what
keeps every child access of the search descent in bounds. -/
def childCountOk : Node K V → Bool
  | .mk ks cs leaf =>
    (leaf || decide (cs.length = ks.length + 1)) && childCountOkList cs

/-- `childCountOk` over a child list. -/
def childCountOkList : List (Node K V) → Bool
  | [] => true
  | c :: cs => childCountOk c && childCountOkList cs

end

/-- A deliberately malformed tree for exercising the oracle: the root's
keys are out of order AND its child count is wrong (two violations in
one node), an inner node has a wrong child count, and the two leaves
sit at different depths. -/
def badTree : BTree Int Int :=
  BTree.mk intCmp
    (.mk [(5, 5), (4, 4)]
      [ .mk [(1, 1)] [] true,
        .mk [(7, 7)] [.mk [(6, 6)] [] true] false ] false) 2

/-- A parent node about to rebalance its middle child (index 1), which
has underflowed to zero keys while both its siblings hold exactly the
minimum for degree 2. -/
def mergeParent : Node Int Int :=
  .mk [(20, 20), (40, 40)]
    [ .mk [(10, 10)] [] true, .mk [] [] true, .mk [(50, 50)] [] true ] false

/-! ## Theorems -/

/-- Evaluation of step 1 of the `rot` script. -/
theorem rotStep1 : t2.Insert 10 10 = some (BTree.mk intCmp rotT1 2) := by rfl

/-- Evaluation of step 2 of the `rot` script. -/
theorem rotStep2 : (BTree.mk intCmp rotT1 2).Insert 20 20 = some (BTree.mk intCmp rotT2 2) := by rfl

/-- Evaluation of step 3 of the `rot` script. -/
theorem rotStep3 : (BTree.mk intCmp rotT2 2).Insert 30 30 = some (BTree.mk intCmp rotT3 2) := by rfl

/-- Evaluation of step 4 of the `rot` script. -/
theorem rotStep4 : (BTree.mk intCmp rotT3 2).Insert 40 40 = some (BTree.mk intCmp rotT4 2) := by rfl

/-- Evaluation of step 5 of the `rot` script. -/
theorem rotStep5 : (BTree.mk intCmp rotT4 2).Insert 50 50 = some (BTree.mk intCmp rotT5 2) := by rfl

/-- Evaluation of step 6 of the `rot` script. -/
theorem rotStep6 : (BTree.mk intCmp rotT5 2).Insert 60 60 = some (BTree.mk intCmp rotT6 2) := by rfl

/-- Evaluation of step 7 of the `rot` script. -/
theorem rotStep7 : (BTree.mk intCmp rotT6 2).Insert 70 70 = some (BTree.mk intCmp rotT7 2) := by rfl

/-- Evaluation of step 8 of the `rot` script. -/
theorem rotStep8 : (BTree.mk intCmp rotT7 2).Insert 80 80 = some (BTree.mk intCmp rotT8 2) := by rfl

/-- Evaluation of step 9 of the `rot` script. -/
theorem rotStep9 : (BTree.mk intCmp rotT8 2).Insert 90 90 = some (BTree.mk intCmp rotT9 2) := by rfl

/-- Evaluation of step 10 of the `rot` script. -/
theorem rotStep10 : (BTree.mk intCmp rotT9 2).Insert 100 100 = some (BTree.mk intCmp rotT10 2) := by rfl

/-- Evaluation of step 11 of the `rot` script. -/
theorem rotStep11 : (BTree.mk intCmp rotT10 2).Insert 25 25 = some (BTree.mk intCmp rotT11 2) := by rfl

/-- Evaluation of step 12 of the `rot` script. -/
theorem rotStep12 : (BTree.mk intCmp rotT11 2).Insert 35 35 = some (BTree.mk intCmp rotT12 2) := by rfl

/-- Evaluation of step 13 of the `rot` script. -/
theorem rotStep13 : (BTree.mk intCmp rotT12 2).Insert 27 27 = some (BTree.mk intCmp rotT13 2) := by rfl

/-- Evaluation of step 14 of the `rot` script. -/
theorem rotStep14 : (BTree.mk intCmp rotT13 2).Delete 100 = some (BTree.mk intCmp rotT14 2) := by rfl

/-- Evaluation of step 15 of the `rot` script. -/
theorem rotStep15 : (BTree.mk intCmp rotT14 2).Delete 50 = some (BTree.mk intCmp rotT15 2) := by rfl

/-- Evaluation of step 16 of the `rot` script. -/
theorem rotStep16 : (BTree.mk intCmp rotT15 2).Delete 70 = some (BTree.mk intCmp rotT16 2) := by rfl

/-- Evaluation of step 17 of the `rot` script. -/
theorem rotStep17 : (BTree.mk intCmp rotT16 2).Delete 90 = some (BTree.mk intCmp rotT17 2) := by rfl

/-- Evaluation of step 1 of the `ed` script. -/
theorem edStep1 : t2.Insert 1 1 = some (BTree.mk intCmp edT1 2) := by rfl

/-- Evaluation of step 2 of the `ed` script. -/
theorem edStep2 : (BTree.mk intCmp edT1 2).Delete 1 = some (BTree.mk intCmp edT2 2) := by rfl

/-- Evaluation of step 1 of the `ups` script. -/
theorem upsStep1 : t2.Insert 10 10 = some (BTree.mk intCmp upsT1 2) := by rfl

/-- Evaluation of step 2 of the `ups` script. -/
theorem upsStep2 : (BTree.mk intCmp upsT1 2).Insert 20 20 = some (BTree.mk intCmp upsT2 2) := by rfl

/-- Evaluation of step 3 of the `ups` script. -/
theorem upsStep3 : (BTree.mk intCmp upsT2 2).Insert 30 30 = some (BTree.mk intCmp upsT3 2) := by rfl

/-- Evaluation of step 4 of the `ups` script. -/
theorem upsStep4 : (BTree.mk intCmp upsT3 2).Insert 40 40 = some (BTree.mk intCmp upsT4 2) := by rfl

/-- Evaluation of step 5 of the `ups` script. -/
theorem upsStep5 : (BTree.mk intCmp upsT4 2).Insert 50 50 = some (BTree.mk intCmp upsT5 2) := by rfl

/-- Evaluation of step 6 of the `ups` script. -/
theorem upsStep6 : (BTree.mk intCmp upsT5 2).Insert 40 999 = some (BTree.mk intCmp upsT6 2) := by rfl

/-- Evaluation of step 1 of the `ov` script. -/
theorem ovStep1 : t2.Insert 1 1 = some (BTree.mk intCmp ovT1 2) := by rfl

/-- Evaluation of step 2 of the `ov` script. -/
theorem ovStep2 : (BTree.mk intCmp ovT1 2).Insert 2 2 = some (BTree.mk intCmp ovT2 2) := by rfl

/-- Evaluation of step 3 of the `ov` script. -/
theorem ovStep3 : (BTree.mk intCmp ovT2 2).Insert 3 3 = some (BTree.mk intCmp ovT3 2) := by rfl

/-- Evaluation of step 4 of the `ov` script. -/
theorem ovStep4 : (BTree.mk intCmp ovT3 2).Insert 2 999 = some (BTree.mk intCmp ovT4 2) := by rfl

/-- Evaluation of step 1 of the `mg` script. -/
theorem mgStep1 : t2.Insert 10 10 = some (BTree.mk intCmp mgT1 2) := by rfl

/-- Evaluation of step 2 of the `mg` script. -/
theorem mgStep2 : (BTree.mk intCmp mgT1 2).Insert 20 20 = some (BTree.mk intCmp mgT2 2) := by rfl

/-- Evaluation of step 3 of the `mg` script. -/
theorem mgStep3 : (BTree.mk intCmp mgT2 2).Insert 30 30 = some (BTree.mk intCmp mgT3 2) := by rfl

/-- Evaluation of step 4 of the `mg` script. -/
theorem mgStep4 : (BTree.mk intCmp mgT3 2).Insert 40 40 = some (BTree.mk intCmp mgT4 2) := by rfl

/-- Evaluation of step 5 of the `mg` script. -/
theorem mgStep5 : (BTree.mk intCmp mgT4 2).Insert 50 50 = some (BTree.mk intCmp mgT5 2) := by rfl

/-- Evaluation of step 6 of the `mg` script. -/
theorem mgStep6 : (BTree.mk intCmp mgT5 2).Insert 60 60 = some (BTree.mk intCmp mgT6 2) := by rfl

/-- Evaluation of step 7 of the `mg` script. -/
theorem mgStep7 : (BTree.mk intCmp mgT6 2).Delete 60 = some (BTree.mk intCmp mgT7 2) := by rfl

/-- Evaluation of step 8 of the `mg` script. -/
theorem mgStep8 : (BTree.mk intCmp mgT7 2).Delete 30 = some (BTree.mk intCmp mgT8 2) := by rfl

/-- The `rotChain` script evaluated to its final tree. -/
theorem rotChain : applyOps t2 rotationScript = some (BTree.mk intCmp rotT17 2) := by
  simp only [rotationScript, rotationInserts, List.append_eq, List.cons_append, List.nil_append, applyOps, rotStep1, rotStep2, rotStep3, rotStep4, rotStep5, rotStep6, rotStep7, rotStep8, rotStep9, rotStep10, rotStep11, rotStep12, rotStep13, rotStep14, rotStep15, rotStep16, rotStep17]

/-- The `rotPrefixChain` script evaluated to its final tree. -/
theorem rotPrefixChain : applyOps t2 rotationPrefix = some (BTree.mk intCmp rotT16 2) := by
  simp only [rotationPrefix, rotationInserts, List.append_eq, List.cons_append, List.nil_append, applyOps, rotStep1, rotStep2, rotStep3, rotStep4, rotStep5, rotStep6, rotStep7, rotStep8, rotStep9, rotStep10, rotStep11, rotStep12, rotStep13, rotStep14, rotStep15, rotStep16]

/-- The `edChain` script evaluated to its final tree. -/
theorem edChain : applyOps t2 [Op.ins 1 1, Op.del 1] = some (BTree.mk intCmp edT2 2) := by
  simp only [applyOps, edStep1, edStep2]

/-- The `upsBuildChain` script evaluated to its final tree. -/
theorem upsBuildChain : applyOps t2 upsertBuildScript = some (BTree.mk intCmp upsT5 2) := by
  simp only [upsertBuildScript, applyOps, upsStep1, upsStep2, upsStep3, upsStep4, upsStep5]

/-- The `upsChain` script evaluated to its final tree. -/
theorem upsChain : applyOps t2 upsertMedianScript = some (BTree.mk intCmp upsT6 2) := by
  simp only [upsertMedianScript, upsertBuildScript, List.append_eq, List.cons_append, List.nil_append, applyOps, upsStep1, upsStep2, upsStep3, upsStep4, upsStep5, upsStep6]

/-- The `ovBuildChain` script evaluated to its final tree. -/
theorem ovBuildChain : applyOps t2 overwriteBuildScript = some (BTree.mk intCmp ovT3 2) := by
  simp only [overwriteBuildScript, applyOps, ovStep1, ovStep2, ovStep3]

/-- The `ovChain` script evaluated to its final tree. -/
theorem ovChain : applyOps t2 overwriteScript = some (BTree.mk intCmp ovT4 2) := by
  simp only [overwriteScript, overwriteBuildScript, List.append_eq, List.cons_append, List.nil_append, applyOps, ovStep1, ovStep2, ovStep3, ovStep4]

/-- The `mgBuildChain` script evaluated to its final tree. -/
theorem mgBuildChain : applyOps t2 mergeBuildScript = some (BTree.mk intCmp mgT7 2) := by
  simp only [mergeBuildScript, applyOps, mgStep1, mgStep2, mgStep3, mgStep4, mgStep5, mgStep6, mgStep7]

/-- The `mgChain` script evaluated to its final tree. -/
theorem mgChain : applyOps t2 mergeScript = some (BTree.mk intCmp mgT8 2) := by
  simp only [mergeScript, mergeBuildScript, List.append_eq, List.cons_append, List.nil_append, applyOps, mgStep1, mgStep2, mgStep3, mgStep4, mgStep5, mgStep6, mgStep7, mgStep8]

/-- Induction over the node structure: to prove `P` for every node it
suffices to prove it for a node assuming it for all its children. -/
theorem Node.inductionOn {P : Node K V → Prop} (n : Node K V)
    (h : ∀ ks cs leaf, (∀ c ∈ cs, P c) → P (Node.mk ks cs leaf)) : P n := by
  induction n using Node.rec (motive_2 := fun l => ∀ c ∈ l, P c) with
  | mk ks cs leaf ih => exact h ks cs leaf ih
  | nil =>
    rename_i c hc
    exact absurd hc (List.not_mem_nil c)
  | cons c cs ihc ihcs =>
    rename_i x hx
    rcases List.mem_cons.mp hx with h1 | h2
    · exact h1 ▸ ihc
    · exact ihcs x h2

/-- The insertion index returned by the binary-search model never
exceeds the number of keys. -/
theorem binarySearchKeys_fst_le (cmp : K → K → Int) (ks : List (K × V)) (key : K) :
    (binarySearchKeys cmp ks key).1 ≤ ks.length := by
  simp only [binarySearchKeys]
  cases ks[ks.findIdx fun a => decide (0 ≤ cmp a.1 key)]? <;>
    exact List.findIdx_le_length _

/-- If the binary-search model reports an exact match, some stored key
compares equal to the target. -/
theorem binarySearchKeys_found (cmp : K → K → Int) (ks : List (K × V)) (key : K)
    (h : (binarySearchKeys cmp ks key).2 = true) :
    ∃ a ∈ ks, cmp a.1 key = 0 := by
  simp only [binarySearchKeys] at h
  cases hx : ks[ks.findIdx fun a => decide (0 ≤ cmp a.1 key)]? with
  | none => rw [hx] at h; simp at h
  | some a =>
    rw [hx] at h
    simp only [decide_eq_true_eq] at h
    exact ⟨a, List.getElem?_mem hx, h⟩

/-- Every child of a shape-correct node is shape-correct. -/
theorem shapeOk_children {n : Node K V} (h : n.shapeOk = true) :
    ∀ c ∈ n.children, c.shapeOk = true := by
  obtain ⟨ks, cs, leaf⟩ := n
  simp only [Node.shapeOk, Bool.and_eq_true] at h
  obtain ⟨-, hlist⟩ := h
  intro c hc
  induction cs with
  | nil => exact absurd hc (List.not_mem_nil c)
  | cons d ds ih =>
    simp only [shapeOkList, Bool.and_eq_true] at hlist
    rcases List.mem_cons.mp hc with h1 | h2
    · exact h1 ▸ hlist.1
    · exact ih hlist.2 h2

/-- A shape-correct internal node has one more child than keys. -/
theorem shapeOk_internal {ks : List (K × V)} {cs : List (Node K V)}
    (h : (Node.mk ks cs false).shapeOk = true) : cs.length = ks.length + 1 := by
  simp only [Node.shapeOk, Bool.and_eq_true] at h
  simpa using h.1

/-- A key stored directly in a node occurs in `allKeys`. -/
theorem mem_allKeys_of_mem_keys {n : Node K V} {a : K × V}
    (h : a ∈ n.keys) : a.1 ∈ n.allKeys := by
  obtain ⟨ks, cs, leaf⟩ := n
  simp only [Node.allKeys, List.mem_append]
  exact Or.inl (List.mem_map_of_mem Prod.fst h)

/-- All keys of a child occur among the keys of the parent's subtree. -/
theorem allKeys_of_child {cs : List (Node K V)} {c : Node K V} (hc : c ∈ cs)
    {ks : List (K × V)} {leaf : Bool} {x : K} (hx : x ∈ c.allKeys) :
    x ∈ (Node.mk ks cs leaf).allKeys := by
  simp only [Node.allKeys, List.mem_append]
  refine Or.inr ?_
  induction cs with
  | nil => exact absurd hc (List.not_mem_nil c)
  | cons d ds ih =>
    simp only [allKeysList, List.mem_append]
    rcases List.mem_cons.mp hc with h1 | h2
    · exact Or.inl (h1 ▸ hx)
    · exact Or.inr (ih h2)

/-- Walking to an in-range child reduces `getFromChild` to
`getFromNode` at that child. -/
theorem getFromChild_eq [Inhabited K] [Inhabited V] (cmp : K → K → Int) (key : K) :
    ∀ (i : Nat) (cs : List (Node K V)) (hi : i < cs.length),
      getFromChild cmp key i cs = getFromNode cmp key cs[i]
  | 0, c :: _, _ => rfl
  | i + 1, _ :: cs, hi =>
    getFromChild_eq cmp key i cs (Nat.lt_of_succ_lt_succ hi)

/-- Soundness of the lookup descent: searching a shape-correct subtree
for a key that occurs nowhere in it reports not-found with the zero
value (it neither panics nor invents a value). -/
theorem getFromNode_absent [Inhabited K] [Inhabited V] (cmp : K → K → Int)
    (hcmp : ∀ a b, cmp a b = 0 → a = b) (key : K) (n : Node K V)
    (hshape : n.shapeOk = true) (habs : key ∉ n.allKeys) :
    getFromNode cmp key n = some (default, false) := by
  revert hshape habs
  induction n using Node.inductionOn with
  | h ks cs leaf ih =>
    intro hshape habs
    simp only [getFromNode]
    rcases hbs : binarySearchKeys cmp ks key with ⟨i, found⟩
    cases found with
    | true =>
      have h2 : (binarySearchKeys cmp ks key).2 = true := by rw [hbs]
      obtain ⟨a, ha, hz⟩ := binarySearchKeys_found cmp ks key h2
      exact absurd (hcmp _ _ hz ▸ mem_allKeys_of_mem_keys (n := .mk ks cs leaf) ha)
        habs
    | false =>
      cases leaf with
      | true => rfl
      | false =>
        have hi : i < cs.length := by
          have hle := binarySearchKeys_fst_le cmp ks key
          rw [hbs] at hle
          have hcc := shapeOk_internal hshape
          omega
        show getFromChild cmp key i cs = some (default, false)
        rw [getFromChild_eq cmp key i cs hi]
        refine ih cs[i] (List.getElem_mem hi)
          (shapeOk_children hshape cs[i] (List.getElem_mem hi)) ?_
        intro hmem
        exact habs (allKeys_of_child (List.getElem_mem hi) hmem)

/-- Walking to an in-range child reduces `findInChild` to
`findNodeForDeletion` at that child. -/
theorem findInChild_eq (cmp : K → K → Int) (key : K) (path : List Nat) :
    ∀ (i : Nat) (cs : List (Node K V)) (hi : i < cs.length),
      findInChild cmp key path i cs = findNodeForDeletion cmp key cs[i] path
  | 0, c :: _, _ => rfl
  | i + 1, _ :: cs, hi =>
    findInChild_eq cmp key path i cs (Nat.lt_of_succ_lt_succ hi)

/-- Soundness of the deletion search: in a shape-correct subtree that
nowhere contains the key, `findNodeForDeletion` reports `notFound`
(Go returns `nil`), whatever path prefix it was started with. -/
theorem findNodeForDeletion_absent (cmp : K → K → Int)
    (hcmp : ∀ a b, cmp a b = 0 → a = b) (key : K) (n : Node K V)
    (hshape : n.shapeOk = true) (habs : key ∉ n.allKeys) :
    ∀ path, findNodeForDeletion cmp key n path = .notFound := by
  revert hshape habs
  induction n using Node.inductionOn with
  | h ks cs leaf ih =>
    intro hshape habs path
    simp only [findNodeForDeletion]
    rcases hbs : binarySearchKeys cmp ks key with ⟨i, found⟩
    cases found with
    | true =>
      have h2 : (binarySearchKeys cmp ks key).2 = true := by rw [hbs]
      obtain ⟨a, ha, hz⟩ := binarySearchKeys_found cmp ks key h2
      exact absurd (hcmp _ _ hz ▸ mem_allKeys_of_mem_keys (n := .mk ks cs leaf) ha)
        habs
    | false =>
      cases leaf with
      | true => rfl
      | false =>
        have hi : i < cs.length := by
          have hle := binarySearchKeys_fst_le cmp ks key
          rw [hbs] at hle
          have hcc := shapeOk_internal hshape
          omega
        show findInChild cmp key (path ++ [i]) i cs = .notFound
        rw [findInChild_eq cmp key (path ++ [i]) i cs hi]
        refine ih cs[i] (List.getElem_mem hi)
          (shapeOk_children hshape cs[i] (List.getElem_mem hi)) ?_ _
        intro hmem
        exact habs (allKeys_of_child (List.getElem_mem hi) hmem)

/-- C5: deleting a key that occurs nowhere in a shape-correct tree
(under a comparator whose zero means equality) returns normally — no
panic — and leaves the tree unchanged: `Delete` returns the very same
tree value. -/
theorem c5_delete_absent_is_noop [Inhabited K] [Inhabited V] (bt : BTree K V)
    (key : K) (hcmp : ∀ a b, bt.cmp a b = 0 → a = b)
    (hshape : bt.root.shapeOk = true) (habs : key ∉ bt.root.allKeys) :
    bt.Delete key = some bt := by
  unfold BTree.Delete
  rw [findNodeForDeletion_absent bt.cmp hcmp key bt.root hshape habs []]

/-- Witness for C5 on a concrete five-key tree of degree 2: key 999 is
absent, and `Delete 999` returns the identical tree. -/
theorem c5_delete_absent_is_noop_witness :
    ((999 : Int) ∉ (BTree.mk intCmp upsT5 2).root.allKeys)
      ∧ (BTree.mk intCmp upsT5 2).Delete 999 = some (BTree.mk intCmp upsT5 2) :=
  ⟨by decide,
    c5_delete_absent_is_noop (BTree.mk intCmp upsT5 2) 999
      (fun a b h => by simpa [intCmp, Int.sub_eq_zero] using h)
      (by decide) (by decide)⟩

/-- C10: `Get` on a key that occurs nowhere in a shape-correct tree
(under a comparator whose zero means equality) returns `found = false`
paired with the zero value of the value type (modelled as `default`),
and — the model being a pure function — leaves the tree untouched. -/
theorem c10_get_absent_returns_zero_value [Inhabited K] [Inhabited V]
    (bt : BTree K V) (key : K) (hcmp : ∀ a b, bt.cmp a b = 0 → a = b)
    (hshape : bt.root.shapeOk = true) (habs : key ∉ bt.root.allKeys) :
    bt.Get key = some (default, false) :=
  getFromNode_absent bt.cmp hcmp key bt.root hshape habs

/-- Witness for C10 on a concrete five-key tree of degree 2: key 777 is
absent, and `Get 777` returns the integer zero value with
`found = false`. -/
theorem c10_get_absent_returns_zero_value_witness :
    ((777 : Int) ∉ (BTree.mk intCmp upsT5 2).root.allKeys)
      ∧ (BTree.mk intCmp upsT5 2).Get 777 = some (0, false) :=
  ⟨by decide,
    c10_get_absent_returns_zero_value (BTree.mk intCmp upsT5 2) 777
      (fun a b h => by simpa [intCmp, Int.sub_eq_zero] using h)
      (by decide) (by decide)⟩

/-- C6 counterexample: `NewWithTee` with minimum degree 1 does not fail
in any way — there is no validation in its body — and the tree it
returns is usable: it is the ordinary empty tree, `Get` answers
not-found on it, and a first `Insert` succeeds and is retrievable.
This refutes the claim that a degree below 2 "fails loudly
(abort/panic/assert) rather than returning a usable tree". -/
theorem c6_counterexample_no_validation :
    (NewWithTee intCmp 1 : BTree Int Int)
        = BTree.mk intCmp (Node.mk [] [] true) 1
      ∧ (NewWithTee intCmp 1 : BTree Int Int).Get 5 = some (0, false)
      ∧ ((NewWithTee intCmp 1 : BTree Int Int).Insert 5 50).map
          (fun bt => bt.Get 5) = some (some (50, true)) := by
  exact ⟨rfl, rfl, rfl⟩

/-- C6 amended: the constructor performs no validation and returns a
tree normally for `tee < 2`; the broken contract only surfaces in later
operations — with `tee = 1` the second `Insert` reaches
`insertNonFull`'s fatal precondition failure ("insertNonFull into a
full node"), modelled as `none`. -/
theorem c6_amended_failure_surfaces_later :
    (NewWithTee intCmp 1 : BTree Int Int).root = Node.mk [] [] true
      ∧ ((NewWithTee intCmp 1 : BTree Int Int).Insert 5 50).isSome = true
      ∧ (((NewWithTee intCmp 1 : BTree Int Int).Insert 5 50).bind
          (fun bt => bt.Insert 6 60)) = none := by
  exact ⟨rfl, rfl, rfl⟩

/-- Setting the element left of index `i` and then erasing index `i`
splices the new element in place of the two old ones. -/
theorem set_pred_eraseIdx (A : List α) (i : Nat) (x : α) (h0 : 0 < i)
    (hi : i < A.length) :
    (A.set (i - 1) x).eraseIdx i = A.take (i - 1) ++ x :: A.drop (i + 1) := by
  have h1 : i - 1 < A.length := Nat.lt_of_le_of_lt (Nat.sub_le i 1) hi
  rw [List.set_eq_take_cons_drop x h1]
  have hlt : (A.take (i - 1)).length = i - 1 := List.length_take_of_le (Nat.le_of_lt h1)
  have hsucc : i - 1 + 1 = i := Nat.succ_pred_eq_of_pos h0
  rw [hsucc]
  have hsplit : A.take (i - 1) ++ x :: A.drop i
      = (A.take (i - 1) ++ [x]) ++ A.drop i := by simp
  rw [hsplit, List.eraseIdx_append_of_length_le (by simp [hlt, hsucc]) (A.drop i)]
  have : i - (A.take (i - 1) ++ [x]).length = 0 := by simp [hlt]; omega
  rw [this]
  simp [List.eraseIdx_cons_zero, List.tail_drop]

/-- Setting index `i` and erasing index `i + 1` splices the new element
in place of the two old ones. -/
theorem set_succ_eraseIdx (A : List α) (i : Nat) (x : α)
    (hi : i + 1 < A.length) :
    (A.set i x).eraseIdx (i + 1) = A.take i ++ x :: A.drop (i + 2) := by
  have h1 : i < A.length := Nat.lt_of_succ_lt hi
  rw [List.set_eq_take_cons_drop x h1]
  have hlt : (A.take i).length = i := List.length_take_of_le (Nat.le_of_lt h1)
  have hsplit : A.take i ++ x :: A.drop (i + 1)
      = (A.take i ++ [x]) ++ A.drop (i + 1) := by simp
  rw [hsplit, List.eraseIdx_append_of_length_le (by simp [hlt]) (A.drop (i + 1))]
  have : i + 1 - (A.take i ++ [x]).length = 0 := by simp [hlt]
  rw [this]
  simp [List.eraseIdx_cons_zero, List.tail_drop]

/-- C8 amended: when the child at index `i` of `p` has underflowed and
neither sibling has a surplus, the merge branch of `rebalance` runs
(the returned flag is `true`) and its direction is decided by the LEFT
sibling: whenever `0 < i` (a left sibling exists) the node is folded
into its left sibling around the parent's `(i-1)`-th separator, which is
removed together with the node's child slot; only when `i = 0` (no left
sibling) is the right sibling folded into the node around the `i`-th
separator.  The merged node carries first the left constituent's keys,
then the separator, then the right constituent's keys, and (for
internal nodes) the two child lists concatenated. -/
theorem c8_amended_merge_prefers_left_sibling [Inhabited K] [Inhabited V]
    (tee : Nat) (p : Node K V) (i : Nat)
    (hunder : (p.children.getD i default).keys.length < tee - 1)
    (hnoright : ¬(i + 1 < p.children.length
      ∧ tee ≤ (p.children.getD (i + 1) default).keys.length))
    (hnoleft : ¬(0 < i ∧ tee ≤ (p.children.getD (i - 1) default).keys.length))
    (hip : i < p.children.length)
    (hr0 : i = 0 → i + 1 < p.children.length) :
    (rebalanceLocal tee p i).2 = true
      ∧ (0 < i →
          (rebalanceLocal tee p i).1.keys
              = p.keys.take (i - 1) ++ p.keys.drop i
            ∧ (rebalanceLocal tee p i).1.children
              = p.children.take (i - 1)
                ++ Node.mk
                     ((p.children.getD (i - 1) default).keys
                       ++ [p.keys.getD (i - 1) default]
                       ++ (p.children.getD i default).keys)
                     (if (p.children.getD i default).leaf
                      then (p.children.getD (i - 1) default).children
                      else (p.children.getD (i - 1) default).children
                        ++ (p.children.getD i default).children)
                     (p.children.getD (i - 1) default).leaf
                   :: p.children.drop (i + 1))
      ∧ (i = 0 →
          (rebalanceLocal tee p i).1.keys = p.keys.drop 1
            ∧ (rebalanceLocal tee p i).1.children
              = Node.mk
                  ((p.children.getD 0 default).keys
                    ++ [p.keys.getD 0 default]
                    ++ (p.children.getD 1 default).keys)
                  (if (p.children.getD 0 default).leaf
                   then (p.children.getD 0 default).children
                   else (p.children.getD 0 default).children
                     ++ (p.children.getD 1 default).children)
                  (p.children.getD 0 default).leaf
                :: p.children.drop 2) := by
  unfold rebalanceLocal
  rw [if_neg (by omega : ¬ tee - 1 ≤ (p.children.getD i default).keys.length)]
  rw [if_neg (by
    simp only [Bool.and_eq_true, decide_eq_true_eq]
    exact fun h => hnoright ⟨h.1, h.2⟩)]
  rcases Nat.eq_zero_or_pos i with hi0 | hipos
  · subst hi0
    rw [if_neg (by
      simp only [Bool.and_eq_true, decide_eq_true_eq]
      exact fun h => hnoleft ⟨h.1, h.2⟩)]
    rw [if_pos (by simp)]
    refine ⟨rfl, fun h => absurd h (Nat.lt_irrefl 0), fun _ => ⟨?_, ?_⟩⟩
    · simp [Node.withKeys, Node.withChildren, Node.keys,
        List.eraseIdx_eq_take_drop_succ]
    · show ((p.children.set 0 _).eraseIdx 1) = _
      rw [set_succ_eraseIdx p.children 0 _ (hr0 rfl)]
      simp
  · rw [if_neg (by
      simp only [Bool.and_eq_true, decide_eq_true_eq]
      exact fun h => hnoleft ⟨h.1, h.2⟩)]
    rw [if_neg (by simp [hipos] : ¬ (!decide (0 < i)) = true)]
    refine ⟨rfl, fun _ => ⟨?_, ?_⟩, fun h => absurd h (by omega)⟩
    · simp only [Node.withKeys, Node.withChildren, Node.keys]
      rw [List.eraseIdx_eq_take_drop_succ]
      have hsucc : i - 1 + 1 = i := Nat.succ_pred_eq_of_pos hipos
      rw [hsucc]
    · show ((p.children.set (i - 1) _).eraseIdx i) = _
      rw [set_pred_eraseIdx p.children i _ hipos hip]

/-- Witness for the C8 amended theorem at `mergeParent` (middle child
of three, index 1, degree 2): the merge branch runs. -/
theorem c8_amended_merge_prefers_left_sibling_witness :
    (rebalanceLocal 2 mergeParent 1).2 = true :=
  (c8_amended_merge_prefers_left_sibling 2 mergeParent 1 (by decide)
    (by decide) (by decide) (by decide) (by omega)).1

/-- C8 counterexample: in `mergeScript` the deleted key's leaf (the
middle child `[30]` of the parent `[20,40]`) has BOTH a left sibling
`[10]` and a right sibling `[50]`, each at minimum occupancy; the
claim says the right sibling is folded into the node whenever it
exists, which would pull separator 40 down and leave the parent with
key 20 and the right sibling gone.  The code instead folds the node
into the LEFT sibling: the parent ends with key 40, the left child
becomes `[10,20]`, and the right sibling `[50]` survives untouched. -/
theorem c8_counterexample_merge_direction :
    ((applyOps t2 mergeBuildScript).map (fun bt => bt.root.keys)
        = some [(20, 20), (40, 40)]
      ∧ (applyOps t2 mergeBuildScript).map
          (fun bt => bt.root.children.map Node.keys)
        = some [[(10, 10)], [(30, 30)], [(50, 50)]])
      ∧ ((applyOps t2 mergeScript).map (fun bt => bt.root.keys)
          = some [(40, 40)]
        ∧ (applyOps t2 mergeScript).map
            (fun bt => bt.root.children.map Node.keys)
          = some [[(10, 10), (20, 20)], [(50, 50)]])
      ∧ ([((40 : Int), (40 : Int))] ≠ [((20 : Int), (20 : Int))]) := by
  rw [mgChain, mgBuildChain]
  exact ⟨⟨by decide, by decide⟩, ⟨by decide, by decide⟩, by decide⟩

/-- The sequential first-offence scan of the ordering invariant accepts
exactly when the full conjunction holds. -/
theorem checkKeyChildOrder_none_iff (cmp : K → K → Int) :
    ∀ (ks : List (K × V)) (cs : List (Node K V)),
      checkKeyChildOrder cmp ks cs = none ↔ orderOk cmp ks cs = true
  | [], cs => by simp [checkKeyChildOrder, orderOk]
  | _ :: _, [] => by simp [checkKeyChildOrder, orderOk]
  | _ :: _, [_] => by simp [checkKeyChildOrder, orderOk]
  | k :: ks, c0 :: c1 :: cs => by
    cases h1 : c0.keys.any fun kj => decide (0 < cmp kj.1 k.1) with
    | true =>
      simp only [checkKeyChildOrder, orderOk, h1, if_true, Bool.and_eq_true]
      constructor
      · intro h; cases h
      · rintro ⟨⟨ha, _⟩, _⟩
        obtain ⟨kj, hkj, hgt⟩ := List.any_eq_true.mp h1
        have hle := List.all_eq_true.mp ha kj hkj
        simp only [decide_eq_true_eq] at hgt hle
        omega
    | false =>
      cases h2 : c1.keys.any fun kj => decide (0 < cmp k.1 kj.1) with
      | true =>
        simp only [checkKeyChildOrder, orderOk, h1, h2, Bool.false_eq_true,
          if_false, if_true, Bool.and_eq_true]
        constructor
        · intro h; cases h
        · rintro ⟨⟨_, hb⟩, _⟩
          obtain ⟨kj, hkj, hgt⟩ := List.any_eq_true.mp h2
          have hle := List.all_eq_true.mp hb kj hkj
          simp only [decide_eq_true_eq] at hgt hle
          omega
      | false =>
        simp only [checkKeyChildOrder, orderOk, h1, h2, Bool.false_eq_true,
          if_false, Bool.and_eq_true]
        rw [checkKeyChildOrder_none_iff cmp ks (c1 :: cs)]
        constructor
        · intro h
          refine ⟨⟨?_, ?_⟩, h⟩
          · rw [List.all_eq_true]
            intro kj hkj
            have hf := List.any_eq_false.mp h1 kj hkj
            simp only [decide_eq_true_eq] at hf
            simp only [decide_eq_true_eq]
            omega
          · rw [List.all_eq_true]
            intro kj hkj
            have hf := List.any_eq_false.mp h2 kj hkj
            simp only [decide_eq_true_eq] at hf
            simp only [decide_eq_true_eq]
            omega
        · rintro ⟨-, h⟩
          exact h

/-- `verifyNode` accepts a node exactly when every per-node check
passes; its cascade of early returns is equivalent to the conjunction
`nodeChecksOk`. -/
theorem verifyNode_none_iff (cmp : K → K → Int) (tee : Nat) (isRoot : Bool)
    (n : Node K V) :
    verifyNode cmp tee isRoot n = none ↔ nodeChecksOk cmp tee isRoot n = true := by
  unfold verifyNode nodeChecksOk
  cases isRoot <;> cases hl : n.leaf <;>
    simp only [hl, Bool.not_true, Bool.not_false, Bool.false_and, Bool.true_and,
      Bool.and_false, Bool.and_true, Bool.false_or, Bool.true_or, Bool.or_false,
      Bool.or_true, Bool.false_eq_true, Bool.true_eq_false, if_false, if_true,
      Bool.and_eq_true, decide_eq_true_eq] <;>
    split_ifs <;>
    simp_all [checkKeyChildOrder_none_iff, Bool.and_eq_true] <;>
    first
      | omega
      | exact List.length_pos.mpr (by assumption)
      | exact fun _ => List.length_pos.mpr (by assumption)

/-- The per-node errors collected by the pre-order walk are exactly the
first violations of the violating nodes, in pre-order. -/
theorem verifyErrs_eq_filterMap (cmp : K → K → Int) (tee : Nat) (n : Node K V) :
    ∀ isRoot, verifyErrs cmp tee isRoot n
      = (preorderFlagged isRoot n).filterMap fun mr => verifyNode cmp tee mr.2 mr.1 := by
  induction n using Node.inductionOn with
  | h ks cs leaf ih =>
    intro isRoot
    have hlist : ∀ cs' : List (Node K V), (∀ c ∈ cs', ∀ r,
        verifyErrs cmp tee r c
          = (preorderFlagged r c).filterMap fun mr => verifyNode cmp tee mr.2 mr.1) →
        verifyErrsList cmp tee cs'
          = (preorderFlaggedList cs').filterMap fun mr => verifyNode cmp tee mr.2 mr.1 := by
      intro cs' hmem
      induction cs' with
      | nil => rfl
      | cons c rest ihr =>
        simp only [verifyErrsList, preorderFlaggedList, List.filterMap_append]
        rw [hmem c (List.mem_cons_self c rest) false,
          ihr fun d hd => hmem d (List.mem_cons_of_mem c hd)]
    simp only [verifyErrs, preorderFlagged, List.filterMap_cons]
    rw [hlist cs fun c hc r => ih c hc r]
    cases hv : verifyNode cmp tee isRoot (Node.mk ks cs leaf) <;> simp

/-- `compactAfter prev` collapses to nothing exactly when every element
equals `prev`. -/
theorem compactAfter_eq_nil_iff (prev : Nat) :
    ∀ l : List Nat, compactAfter prev l = [] ↔ ∀ b ∈ l, b = prev
  | [] => by simp [compactAfter]
  | b :: rest => by
    simp only [compactAfter]
    by_cases hb : b = prev
    · rw [if_pos hb, compactAfter_eq_nil_iff prev rest]
      constructor
      · intro h x hx
        rcases List.mem_cons.mp hx with h1 | h2
        · exact h1.trans hb
        · exact h x h2
      · intro h x hx
        exact h x (List.mem_cons_of_mem b hx)
    · rw [if_neg hb]
      constructor
      · intro h; cases h
      · intro h
        exact absurd (h b (List.mem_cons_self b rest)) hb

/-- A non-empty height list compacts to a single value exactly when all
its elements are equal. -/
theorem compact_length_one_iff (l : List Nat) (hne : l ≠ []) :
    (compact l).length = 1 ↔ ∀ h1 ∈ l, ∀ h2 ∈ l, h1 = h2 := by
  obtain ⟨a, rest, rfl⟩ : ∃ a rest, l = a :: rest := by
    cases l with
    | nil => exact absurd rfl hne
    | cons a rest => exact ⟨a, rest, rfl⟩
  simp only [compact, List.length_cons, Nat.add_left_eq_self.symm,
    Nat.succ_eq_add_one]
  constructor
  · intro h x hx y hy
    have hnil : compactAfter a rest = [] := by
      cases hca : compactAfter a rest with
      | nil => rfl
      | cons z zs => rw [hca] at h; simp at h
    have hall := (compactAfter_eq_nil_iff a rest).mp hnil
    have hxa : x = a := by
      rcases List.mem_cons.mp hx with h1 | h2
      · exact h1
      · exact hall x h2
    have hya : y = a := by
      rcases List.mem_cons.mp hy with h1 | h2
      · exact h1
      · exact hall y h2
    rw [hxa, hya]
  · intro h
    have : compactAfter a rest = [] := by
      rw [compactAfter_eq_nil_iff a rest]
      intro b hb
      exact h b (List.mem_cons_of_mem a hb) a (List.mem_cons_self a rest)
    rw [this]
    rfl

/-- What `verify` reports, as one specification: success exactly when
every node passes every per-node check and there is at least one leaf
with all leaves at equal depth; and when some per-node check fails, one
violation per violating node. -/
theorem verify_oracle_spec (bt : BTree K V) :
    (bt.verify = []
        ↔ (∀ mr ∈ preorderFlagged true bt.root,
              nodeChecksOk bt.cmp bt.tee mr.2 mr.1 = true)
            ∧ leafHeights bt.root 0 ≠ []
            ∧ ∀ h1 ∈ leafHeights bt.root 0, ∀ h2 ∈ leafHeights bt.root 0, h1 = h2)
      ∧ (verifyErrs bt.cmp bt.tee true bt.root ≠ [] →
          bt.verify.length
            = ((preorderFlagged true bt.root).filter
                fun mr => !nodeChecksOk bt.cmp bt.tee mr.2 mr.1).length) := by
  have herr : verifyErrs bt.cmp bt.tee true bt.root = []
      ↔ ∀ mr ∈ preorderFlagged true bt.root,
          nodeChecksOk bt.cmp bt.tee mr.2 mr.1 = true := by
    rw [verifyErrs_eq_filterMap, List.filterMap_eq_nil_iff]
    constructor
    · intro h mr hmr
      exact (verifyNode_none_iff bt.cmp bt.tee mr.2 mr.1).mp (h mr hmr)
    · intro h mr hmr
      exact (verifyNode_none_iff bt.cmp bt.tee mr.2 mr.1).mpr (h mr hmr)
  constructor
  · unfold BTree.verify
    cases he : verifyErrs bt.cmp bt.tee true bt.root with
    | nil =>
      simp only [List.isEmpty_nil, if_true]
      rw [← herr]
      simp only [he, true_iff, true_and]
      by_cases hnil : leafHeights bt.root 0 = []
      · rw [hnil]
        simp [compact]
      · rw [← compact_length_one_iff (leafHeights bt.root 0) hnil]
        constructor
        · intro h
          refine ⟨hnil, ?_⟩
          by_contra hne
          rw [if_pos hne] at h
          cases h
        · rintro ⟨-, h⟩
          rw [if_neg (by omega : ¬ (compact (leafHeights bt.root 0)).length ≠ 1)]
    | cons e es =>
      simp only [List.isEmpty_cons, if_false]
      constructor
      · intro h; cases h
      · rintro ⟨hall, -⟩
        rw [← herr] at hall
        rw [he] at hall
        cases hall
  · intro hne
    have hverify : bt.verify = verifyErrs bt.cmp bt.tee true bt.root := by
      unfold BTree.verify
      rw [if_neg (by simpa [List.isEmpty_iff] using hne)]
    rw [hverify, verifyErrs_eq_filterMap, List.length_filterMap_eq_countP,
      List.countP_eq_length_filter]
    congr 1
    apply List.filter_congr
    intro mr _
    cases hok : nodeChecksOk bt.cmp bt.tee mr.2 mr.1 with
    | true =>
      have hnone := (verifyNode_none_iff bt.cmp bt.tee mr.2 mr.1).mpr hok
      simp [hnone]
    | false =>
      have hnn : verifyNode bt.cmp bt.tee mr.2 mr.1 ≠ none := by
        intro h
        rw [verifyNode_none_iff] at h
        rw [h] at hok
        cases hok
      simp [Option.isSome_iff_ne_none, hnn]

/-- C9 amended: the oracle reports success exactly when every node
passes every per-node check and there is at least one leaf with all
leaves at equal depth; and when some per-node check fails, the report
contains exactly one violation — the first discovered — for each
violating node (in pre-order), so violations in distinct nodes are
aggregated, but further violations inside the same node and the
leaf-depth check are not included. -/
theorem c9_amended_one_violation_per_node (bt : BTree K V) :
    (bt.verify = []
        ↔ (∀ mr ∈ preorderFlagged true bt.root,
              nodeChecksOk bt.cmp bt.tee mr.2 mr.1 = true)
            ∧ leafHeights bt.root 0 ≠ []
            ∧ ∀ h1 ∈ leafHeights bt.root 0, ∀ h2 ∈ leafHeights bt.root 0, h1 = h2)
      ∧ (verifyErrs bt.cmp bt.tee true bt.root ≠ [] →
          bt.verify.length
            = ((preorderFlagged true bt.root).filter
                fun mr => !nodeChecksOk bt.cmp bt.tee mr.2 mr.1).length) :=
  verify_oracle_spec bt

/-- Witness for the C9 amended theorem at `badTree`: its per-node error
list is non-empty, and the report length equals the number of violating
nodes (here 2 of the 4 nodes). -/
theorem c9_amended_one_violation_per_node_witness :
    (badTree.verify).length
      = ((preorderFlagged true badTree.root).filter
          fun mr => !nodeChecksOk badTree.cmp badTree.tee mr.2 mr.1).length :=
  (c9_amended_one_violation_per_node badTree).2 (by decide)

/-- C9 counterexample: on `badTree` the oracle reports exactly two
violations — one per violating node, each the FIRST check that failed
there — although the root violates a second check as well (its child
count is wrong on top of its keys being unsorted) and the leaf depths
are unequal on top of that; neither of those further violations appears
in the aggregate, refuting the claim that every violated check at every
node plus any depth inequality is reported. -/
theorem c9_counterexample_not_all_violations :
    badTree.verify = [Violation.keysNotSorted, Violation.childCountMismatch 1 1]
      ∧ badTree.root.children.length ≠ badTree.root.keys.length + 1
      ∧ Violation.childCountMismatch badTree.root.keys.length
          badTree.root.children.length ∉ badTree.verify
      ∧ (compact (leafHeights badTree.root 0)).length ≠ 1
      ∧ ∀ cp, Violation.unequalLeafHeights cp ∉ badTree.verify := by
  refine ⟨by decide, by decide, by decide, by decide, ?_⟩
  intro cp hmem
  rw [show badTree.verify
      = [Violation.keysNotSorted, Violation.childCountMismatch 1 1] from by decide] at hmem
  simp at hmem

/-- The height of a member never exceeds the list's maximal height. -/
theorem height_le_heightList {cs : List (Node K V)} {c : Node K V} (hc : c ∈ cs) :
    c.height ≤ heightList cs := by
  induction cs with
  | nil => exact absurd hc (List.not_mem_nil c)
  | cons d ds ih =>
    rw [heightList]
    rcases List.mem_cons.mp hc with h1 | h2
    · exact h1 ▸ Nat.le_max_left _ _
    · exact Nat.le_trans (ih h2) (Nat.le_max_right _ _)

/-- Taking a prefix cannot increase the maximal height. -/
theorem heightList_take_le (cs : List (Node K V)) :
    ∀ m, heightList (cs.take m) ≤ heightList cs := by
  induction cs with
  | nil => intro m; rw [List.take_nil]
  | cons d ds ih =>
    intro m
    cases m with
    | zero => exact Nat.zero_le _
    | succ m =>
      rw [List.take_succ_cons, heightList, heightList]
      exact max_le_max (Nat.le_refl _) (ih m)

/-- Dropping a prefix cannot increase the maximal height. -/
theorem heightList_drop_le (cs : List (Node K V)) :
    ∀ m, heightList (cs.drop m) ≤ heightList cs := by
  induction cs with
  | nil => intro m; rw [List.drop_nil]
  | cons d ds ih =>
    intro m
    cases m with
    | zero => exact Nat.le_refl _
    | succ m =>
      rw [List.drop_succ_cons, heightList]
      exact Nat.le_trans (ih m) (Nat.le_max_right _ _)

/-- Every node has positive height. -/
theorem height_pos (n : Node K V) : 1 ≤ n.height := by
  obtain ⟨ks, cs, leaf⟩ := n
  rw [Node.height]
  omega

/-- When its guard passes (the parent is not full, the child is), the
split succeeds and produces the parent with the median key spliced in
and the two halves of the child in place of it. -/
theorem splitChild_eq [Inhabited K] [Inhabited V] (tee : Nat)
    (n : Node K V) (i : Nat) (hfn : nodeIsFull tee n = false)
    (hfy : nodeIsFull tee (n.children.getD i default) = true) :
    splitChild tee n i
      = some (Node.mk
          (n.keys.insertIdx i
            ((n.children.getD i default).keys.getD (tee - 1) default))
          ((n.children.set i
            (Node.mk ((n.children.getD i default).keys.take (tee - 1))
              (if (n.children.getD i default).leaf
               then (n.children.getD i default).children
               else (n.children.getD i default).children.take tee)
              (n.children.getD i default).leaf)).insertIdx (i + 1)
            (Node.mk (((n.children.getD i default).keys.drop tee).take (tee - 1))
              (if (n.children.getD i default).leaf then []
               else ((n.children.getD i default).children.drop tee).take tee)
              (n.children.getD i default).leaf))
          n.leaf) := by
  simp only [splitChild]
  rw [hfn, hfy]
  simp

/-- Unfolded form of every node's height. -/
theorem height_eq (n : Node K V) : n.height = 1 + heightList n.children := by
  obtain ⟨ks, cs, leaf⟩ := n
  rfl

/-- `nodeIsFull` unfolded to an arithmetic statement. -/
theorem nodeIsFull_eq_false_iff (tee : Nat) (n : Node K V) :
    nodeIsFull tee n = false ↔ n.keys.length < 2 * tee - 1 := by
  simp [nodeIsFull, Nat.lt_iff_add_one_le]
  omega

/-- The empty leaf node accepts an insertion whenever any fuel is left
and the degree is positive (one unfolding: it is a non-full leaf). -/
theorem insertNonFull_default_isSome [Inhabited K] [Inhabited V]
    (cmp : K → K → Int) (tee : Nat) (htee : 2 ≤ tee) (f : Nat) (hf : 1 ≤ f)
    (kv : K × V) :
    (insertNonFull cmp tee f (default : Node K V) kv).isSome = true := by
  obtain ⟨f', rfl⟩ : ∃ f', f = f' + 1 := ⟨f - 1, by omega⟩
  rw [insertNonFull]
  rw [show nodeIsFull tee (default : Node K V) = false by
    rw [nodeIsFull_eq_false_iff]
    show (0 : Nat) < 2 * tee - 1
    omega]
  simp only [Bool.false_eq_true, if_false]
  rfl

/-- With fuel exceeding the node's height, `insertNonFull` on a
non-full node never returns `none`: the fuel never runs out and neither
fatal precondition (its own full-node check, `splitChild`'s guard) ever
fires. -/
theorem insertNonFull_isSome [Inhabited K] [Inhabited V] (cmp : K → K → Int)
    (tee : Nat) (htee : 2 ≤ tee) :
    ∀ (fuel : Nat) (n : Node K V) (kv : K × V),
      nodeIsFull tee n = false → n.height < fuel →
      (insertNonFull cmp tee fuel n kv).isSome = true := by
  intro fuel
  induction fuel with
  | zero =>
    intro n kv _ hh
    exact absurd hh (by omega)
  | succ f ih =>
    rintro ⟨nks, ncs, nleaf⟩ kv hfull hh
    rw [height_eq] at hh
    simp only [Node.children] at hh
    simp only [insertNonFull, hfull, Bool.false_eq_true, if_false,
      Node.keys, Node.children, Node.leaf, Node.withKeys, Node.withChildren]
    rcases hbs : binarySearchKeys cmp nks kv.1 with ⟨i, found⟩
    cases found with
    | true => simp
    | false =>
      simp only
      cases nleaf with
      | true => simp
      | false =>
        simp only [Bool.false_eq_true, if_false]
        -- the recursion always descends one level: any target child is
        -- either a child of the node (possibly halved by the split) or,
        -- out of range, the empty default leaf
        have hrec : ∀ m : Node K V, nodeIsFull tee m = false →
            m.height ≤ heightList ncs →
            (insertNonFull cmp tee f m kv).isSome = true := by
          intro m hmf hm
          exact ih m kv hmf (by omega)
        cases hfc : nodeIsFull tee (ncs.getD i default) with
        | false =>
          simp only [Bool.false_eq_true, if_false]
          have hsome : (insertNonFull cmp tee f (ncs.getD i default) kv).isSome
              = true := by
            rcases Nat.lt_or_ge i ncs.length with hi | hi
            · refine hrec _ hfc ?_
              rw [List.getD_eq_getElem _ _ hi]
              exact height_le_heightList (List.getElem_mem hi)
            · rw [List.getD_eq_default _ _ hi]
              refine insertNonFull_default_isSome cmp tee htee f (by omega) kv
          obtain ⟨c', hc'⟩ := Option.isSome_iff_exists.mp hsome
          rw [hc']
          rfl
        | true =>
          simp only [if_true]
          have hilt : i < ncs.length := by
            by_contra hge
            rw [List.getD_eq_default _ _ (by omega)] at hfc
            rw [show nodeIsFull tee (default : Node K V) = false by
              rw [nodeIsFull_eq_false_iff]
              show (0 : Nat) < 2 * tee - 1
              omega] at hfc
            cases hfc
          have hchh : (ncs.getD i default).height ≤ heightList ncs := by
            rw [List.getD_eq_getElem _ _ hilt]
            exact height_le_heightList (List.getElem_mem hilt)
          rw [show splitChild tee (Node.mk nks ncs false : Node K V) i
              = some (Node.mk
                  (nks.insertIdx i ((ncs.getD i default).keys.getD (tee - 1) default))
                  ((ncs.set i
                    (Node.mk ((ncs.getD i default).keys.take (tee - 1))
                      (if (ncs.getD i default).leaf
                       then (ncs.getD i default).children
                       else (ncs.getD i default).children.take tee)
                      (ncs.getD i default).leaf)).insertIdx (i + 1)
                    (Node.mk (((ncs.getD i default).keys.drop tee).take (tee - 1))
                      (if (ncs.getD i default).leaf then []
                       else ((ncs.getD i default).children.drop tee).take tee)
                      (ncs.getD i default).leaf))
                  false) from splitChild_eq tee (Node.mk nks ncs false) i hfull hfc]
          rcases hcc : ncs.getD i default with ⟨cks, ccs, cl⟩
          rw [hcc, height_eq] at hchh
          simp only [Node.children] at hchh
          simp only [Node.keys, Node.children, Node.leaf]
          set Y : Node K V := Node.mk (cks.take (tee - 1))
            (if cl then ccs else ccs.take tee) cl with hYdef
          set Z : Node K V := Node.mk ((cks.drop tee).take (tee - 1))
            (if cl then [] else (ccs.drop tee).take tee) cl with hZdef
          have hyh : Y.height ≤ 1 + heightList ccs := by
            rw [height_eq Y, hYdef]
            simp only [Node.children]
            cases cl with
            | true => simp
            | false =>
              simp only [Bool.false_eq_true, if_false]
              have := heightList_take_le ccs tee
              omega
          have hzh : Z.height ≤ 1 + heightList ccs := by
            rw [height_eq Z, hZdef]
            simp only [Node.children]
            cases cl with
            | true => simp [heightList]
            | false =>
              simp only [Bool.false_eq_true, if_false]
              have h1 := heightList_take_le (ccs.drop tee) tee
              have h2 := heightList_drop_le ccs tee
              omega
          have hyfull : nodeIsFull tee Y = false := by
            rw [nodeIsFull_eq_false_iff, hYdef]
            show (cks.take (tee - 1)).length < 2 * tee - 1
            rw [List.length_take]
            omega
          have hzfull : nodeIsFull tee Z = false := by
            rw [nodeIsFull_eq_false_iff, hZdef]
            show ((cks.drop tee).take (tee - 1)).length < 2 * tee - 1
            rw [List.length_take]
            omega
          have hsetlen : (ncs.set i Y).length = ncs.length := by
            rw [List.length_set]
          have hlen : ((ncs.set i Y).insertIdx (i + 1) Z).length
              = ncs.length + 1 := by
            rw [List.length_insertIdx (i + 1) _ (by omega), hsetlen]
          have hYget : ((ncs.set i Y).insertIdx (i + 1) Z).getD i default
              = Y := by
            rw [List.getD_eq_getElem _ _ (by omega)]
            rw [List.getElem_insertIdx_of_lt _ _ _ _ (by omega) (by omega)]
            exact List.getElem_set_self (by omega)
          have hZget : ((ncs.set i Y).insertIdx (i + 1) Z).getD (i + 1) default
              = Z := by
            rw [List.getD_eq_getElem _ _ (by omega)]
            exact List.getElem_insertIdx_self _ _ _ (by omega)
          by_cases hgt : 0 < cmp kv.1
              ((nks.insertIdx i (cks.getD (tee - 1) default)).getD i default).1
          · rw [if_pos hgt, hZget]
            obtain ⟨c', hc'⟩ := Option.isSome_iff_exists.mp
              (hrec Z hzfull (Nat.le_trans hzh hchh))
            rw [hc']
            rfl
          · rw [if_neg hgt, hYget]
            obtain ⟨c', hc'⟩ := Option.isSome_iff_exists.mp
              (hrec Y hyfull (Nat.le_trans hyh hchh))
            rw [hc']
            rfl

/-- `Insert` never panics for minimum degree at least 2: the root
pre-split runs `splitChild` only on the legitimate (non-full parent,
full child) pair, and `insertNonFull` is only ever entered on non-full
nodes with sufficient fuel. -/
theorem Insert_isSome [Inhabited K] [Inhabited V] (bt : BTree K V)
    (key : K) (value : V) (htee : 2 ≤ bt.tee) :
    (bt.Insert key value).isSome = true := by
  unfold BTree.Insert
  cases hfull : nodeIsFull bt.tee bt.root with
  | false =>
    simp only [Bool.false_eq_true, if_false, Option.isSome_map']
    exact insertNonFull_isSome bt.cmp bt.tee htee (bt.root.height + 1) bt.root
      (key, value) hfull (by omega)
  | true =>
    simp only [if_true]
    have hnf : nodeIsFull bt.tee (Node.mk [] [bt.root] false : Node K V) = false := by
      rw [nodeIsFull_eq_false_iff]
      show ([] : List (K × V)).length < 2 * bt.tee - 1
      simp only [List.length_nil]
      omega
    have hfy : nodeIsFull bt.tee
        ((Node.mk [] [bt.root] false : Node K V).children.getD 0 default) = true := by
      show nodeIsFull bt.tee bt.root = true
      exact hfull
    rw [splitChild_eq bt.tee _ 0 hnf hfy]
    simp only [Node.children, Node.keys, Node.leaf, List.getD_cons_zero,
      List.insertIdx_zero, List.set_cons_succ, List.set_cons_zero,
      List.insertIdx_succ_cons, Option.isSome_map']
    refine insertNonFull_isSome bt.cmp bt.tee htee _ _ (key, value) ?_ (by omega)
    rw [nodeIsFull_eq_false_iff]
    simp only [Node.keys, List.length_cons, List.length_nil]
    omega

/-- A node accepted in full by the oracle's per-node checks (over the
whole pre-order walk) satisfies the child-count invariant everywhere. -/
theorem childCountOk_of_checks (cmp : K → K → Int) (tee : Nat) (n : Node K V) :
    ∀ isRoot, (∀ mr ∈ preorderFlagged isRoot n,
        nodeChecksOk cmp tee mr.2 mr.1 = true) →
      childCountOk n = true := by
  induction n using Node.inductionOn with
  | h ks cs leaf ih =>
    intro isRoot hall
    have hlist : ∀ cs' : List (Node K V),
        (∀ c ∈ cs', (∀ mr ∈ preorderFlagged false c,
            nodeChecksOk cmp tee mr.2 mr.1 = true) → childCountOk c = true) →
        (∀ mr ∈ preorderFlaggedList cs', nodeChecksOk cmp tee mr.2 mr.1 = true) →
        childCountOkList cs' = true := by
      intro cs' hmem hall'
      induction cs' with
      | nil => rfl
      | cons c rest ihr =>
        rw [childCountOkList, Bool.and_eq_true]
        constructor
        · refine hmem c (List.mem_cons_self c rest) fun mr hmr => ?_
          refine hall' mr ?_
          rw [preorderFlaggedList]
          exact List.mem_append_left _ hmr
        · refine ihr (fun d hd => hmem d (List.mem_cons_of_mem c hd))
            fun mr hmr => ?_
          refine hall' mr ?_
          rw [preorderFlaggedList]
          exact List.mem_append_right _ hmr
    rw [childCountOk, Bool.and_eq_true]
    constructor
    · have hhead := hall ((Node.mk ks cs leaf : Node K V), isRoot)
        (by rw [preorderFlagged]; exact List.mem_cons_self _ _)
      rw [nodeChecksOk] at hhead
      simp only [Node.leaf, Node.children, Node.keys, Bool.and_eq_true,
        Bool.or_eq_true] at hhead
      rcases hhead.2 with hleaf | hcount
      · rw [hleaf]
        rfl
      · rw [Bool.or_eq_true]
        exact Or.inr hcount.1
    · refine hlist cs (fun c hc hc2 => ih c hc false hc2) fun mr hmr => ?_
      refine hall mr ?_
      rw [preorderFlagged]
      exact List.mem_cons_of_mem _ hmr

/-- Every child inherits the child-count invariant. -/
theorem childCountOk_children {n : Node K V} (h : childCountOk n = true) :
    ∀ c ∈ n.children, childCountOk c = true := by
  obtain ⟨ks, cs, leaf⟩ := n
  rw [childCountOk, Bool.and_eq_true] at h
  have hlist := h.2
  show ∀ c ∈ cs, childCountOk c = true
  clear h
  revert hlist
  induction cs with
  | nil =>
    intro _ c hc
    exact absurd hc (List.not_mem_nil c)
  | cons d ds ih =>
    intro hlist c hc
    rw [childCountOkList, Bool.and_eq_true] at hlist
    rcases List.mem_cons.mp hc with h1 | h2
    · exact h1 ▸ hlist.1
    · exact ih hlist.2 c h2

/-- An internal node with the child-count invariant has one more child
than keys. -/
theorem childCountOk_internal {ks : List (K × V)} {cs : List (Node K V)}
    (h : childCountOk (Node.mk ks cs false : Node K V) = true) :
    cs.length = ks.length + 1 := by
  rw [childCountOk, Bool.and_eq_true] at h
  have := h.1
  simp only [Bool.false_or, decide_eq_true_eq] at this
  exact this

/-- The lookup descent cannot run off the child list when the
child-count invariant holds: `Get` never panics. -/
theorem getFromNode_isSome [Inhabited K] [Inhabited V] (cmp : K → K → Int)
    (key : K) (n : Node K V) (hcc : childCountOk n = true) :
    (getFromNode cmp key n).isSome = true := by
  revert hcc
  induction n using Node.inductionOn with
  | h ks cs leaf ih =>
    intro hcc
    simp only [getFromNode]
    rcases hbs : binarySearchKeys cmp ks key with ⟨i, found⟩
    cases found with
    | true => simp
    | false =>
      cases leaf with
      | true => simp
      | false =>
        simp only [Bool.false_eq_true, if_false]
        have hile : i ≤ ks.length := by
          have := binarySearchKeys_fst_le cmp ks key
          rw [hbs] at this
          exact this
        have hcount : cs.length = ks.length + 1 := childCountOk_internal hcc
        have hi : i < cs.length := by omega
        rw [getFromChild_eq cmp key i cs hi]
        exact ih cs[i] (List.getElem_mem hi)
          (childCountOk_children hcc cs[i] (List.getElem_mem hi))

/-- The deletion search cannot run off the child list when the
child-count invariant holds. -/
theorem findNodeForDeletion_ne_panicked (cmp : K → K → Int) (key : K)
    (n : Node K V) (hcc : childCountOk n = true) :
    ∀ path, findNodeForDeletion cmp key n path ≠ FindResult.panicked := by
  revert hcc
  induction n using Node.inductionOn with
  | h ks cs leaf ih =>
    intro hcc path
    simp only [findNodeForDeletion]
    rcases hbs : binarySearchKeys cmp ks key with ⟨i, found⟩
    cases found with
    | true => simp
    | false =>
      cases leaf with
      | true => simp
      | false =>
        simp only [Bool.false_eq_true, if_false]
        have hile : i ≤ ks.length := by
          have := binarySearchKeys_fst_le cmp ks key
          rw [hbs] at this
          exact this
        have hcount : cs.length = ks.length + 1 := childCountOk_internal hcc
        have hi : i < cs.length := by omega
        rw [findInChild_eq cmp key (path ++ [i]) i cs hi]
        exact ih cs[i] (List.getElem_mem hi)
          (childCountOk_children hcc cs[i] (List.getElem_mem hi)) (path ++ [i])

/-- `rebalancePath` along a non-empty path never reaches the
rebalance-on-root panic. -/
theorem rebalancePath_isSome [Inhabited K] [Inhabited V] (tee : Nat) :
    ∀ (path : List Nat) (p : Node K V), path ≠ [] →
      (rebalancePath tee p path).isSome = true
  | [], _, hne => absurd rfl hne
  | [i], p, _ => by rw [rebalancePath]; rfl
  | i :: j :: rest, p, _ => by
    rw [rebalancePath]
    obtain ⟨q, hq⟩ := Option.isSome_iff_exists.mp
      (rebalancePath_isSome tee (j :: rest) (p.children.getD i default) (by simp))
    rw [hq]
    obtain ⟨c', merged⟩ := q
    cases merged <;> simp

/-- `finishRebalance` along a non-empty path always produces a tree. -/
theorem finishRebalance_isSome [Inhabited K] [Inhabited V] (bt : BTree K V)
    (root' : Node K V) (path : List Nat) (hne : path ≠ []) :
    (finishRebalance bt root' path).isSome = true := by
  unfold finishRebalance
  obtain ⟨⟨r, merged⟩, hq⟩ := Option.isSome_iff_exists.mp
    (rebalancePath_isSome bt.tee path root' hne)
  rw [hq]
  cases hm : merged && r.keys.isEmpty <;> simp [hm]

/-- `Delete` never panics when the child-count invariant holds: the
search stays in bounds, and by construction rebalancing is never
invoked with an empty path (Go's `rebalance on root` panic). -/
theorem Delete_isSome [Inhabited K] [Inhabited V] (bt : BTree K V) (key : K)
    (hcc : childCountOk bt.root = true) :
    (bt.Delete key).isSome = true := by
  unfold BTree.Delete
  cases hfind : findNodeForDeletion bt.cmp key bt.root [] with
  | panicked => exact absurd hfind (findNodeForDeletion_ne_panicked _ _ _ hcc [])
  | notFound => rfl
  | found path n idx =>
    cases hnl : n.leaf with
    | true =>
      simp only [hnl, if_true]
      cases hpath : path.isEmpty with
      | true => simp [hpath]
      | false =>
        simp only [hpath, Bool.false_eq_true, if_false]
        exact finishRebalance_isSome bt _ path
          (by simpa [List.isEmpty_iff] using hpath)
    | false =>
      simp only [hnl, Bool.false_eq_true, if_false]
      exact finishRebalance_isSome bt _ (path ++ idx :: rightmostPath
        (n.children.getD idx default)) (by simp)

/-- C7: on a tree of minimum degree at least 2 that the verification
oracle accepts, no public operation can reach a fatal branch: `Get`
stays in bounds, `Insert` reaches neither `splitChild`'s guard (it only
splits full children below non-full parents) nor `insertNonFull`'s
full-node check, and `Delete` neither runs off a child list nor calls
`rebalance` on the root — all three return a result. -/
theorem c7_public_api_never_panics [Inhabited K] [Inhabited V]
    (bt : BTree K V) (key : K) (value : V)
    (htee : 2 ≤ bt.tee) (hinv : bt.verify = []) :
    (bt.Get key).isSome = true
      ∧ (bt.Insert key value).isSome = true
      ∧ (bt.Delete key).isSome = true := by
  have hchecks := ((verify_oracle_spec bt).1.mp hinv).1
  have hcc : childCountOk bt.root = true :=
    childCountOk_of_checks bt.cmp bt.tee bt.root true hchecks
  exact ⟨getFromNode_isSome bt.cmp key bt.root hcc,
    Insert_isSome bt key value htee,
    Delete_isSome bt key hcc⟩

/-- Witness for C7 on a concrete five-key tree of degree 2 that the
oracle accepts: `Get`, `Insert` and `Delete` all return results. -/
theorem c7_public_api_never_panics_witness :
    (BTree.mk intCmp upsT5 2).verify = []
      ∧ ((BTree.mk intCmp upsT5 2).Get 30).isSome = true
      ∧ ((BTree.mk intCmp upsT5 2).Insert 35 35).isSome = true
      ∧ ((BTree.mk intCmp upsT5 2).Delete 30).isSome = true :=
  ⟨by decide,
    c7_public_api_never_panics (BTree.mk intCmp upsT5 2) 30 35
      (by decide) (by decide)⟩

/-- C1: after the final `Delete` of `rotationScript` the verification
oracle reports a child-count violation (an internal node left with one
key but a single child), and already the two-operation script
`Insert 1; Delete 1` makes the oracle report a violation (`verify`
flags every root with zero keys, including the legitimately empty
tree).  The claim that every Insert/Delete sequence leaves the oracle
reporting zero violations is therefore false of the code. -/
theorem c1_verify_reports_violations :
    (applyOps t2 rotationScript).map BTree.verify
        = some [Violation.childCountMismatch 1 1]
      ∧ (applyOps t2 [Op.ins 1 1, Op.del 1]).map BTree.verify
        = some [Violation.rootNoKeys] := by
  rw [rotChain, edChain]
  exact ⟨by decide, by decide⟩

/-- C2: key 10 is inserted by `rotationScript` and never deleted, yet
after the script `Get 10` reports not-found: the rotate-from-left step
of the final deletion dropped the left sibling's other children (the
subtrees holding 10, 25 and 27) from the tree. -/
theorem c2_inserted_key_lost :
    (Op.ins 10 10 ∈ rotationScript
        ∧ rotationScript.all (fun op => match op with
            | .ins _ _ => true
            | .del k => decide (k ≠ 10)) = true)
      ∧ (applyOps t2 rotationScript).map (fun bt => bt.Get 10)
          = some (some (0, false)) := by
  refine ⟨⟨by decide, by decide⟩, ?_⟩
  rw [rotChain]
  decide

/-- C3: in the pre-state of `rotationScript`'s final deletion the left
sibling (`root.children[0]`, keys `[20,30]`) has three children; after
the deletion triggers the internal rotate-from-left it retains only ONE
child (the claim requires exactly one fewer, i.e. two), and that one
remaining child is the very subtree that was just moved across to the
underflowing node, so the same subtree hangs from two parents. -/
theorem c3_left_rotation_drops_children :
    (applyOps t2 rotationPrefix).map
        (fun bt => (bt.root.children.getD 0 default).children.length) = some 3
      ∧ (applyOps t2 rotationScript).map
          (fun bt => (bt.root.children.getD 0 default).children.length) = some 1
      ∧ (applyOps t2 rotationScript).map
          (fun bt => ((bt.root.children.getD 0 default).children.getD 0 default).keys)
        = (applyOps t2 rotationScript).map
          (fun bt => ((bt.root.children.getD 1 default).children.getD 0 default).keys)
      ∧ (applyOps t2 rotationScript).map
          (fun bt => ((bt.root.children.getD 0 default).children.getD 0 default).keys)
        = some [(35, 35)] := by
  rw [rotChain, rotPrefixChain]
  exact ⟨by decide, by decide, by decide, by decide⟩

/-- C4: re-inserting key 40 (already present) leaves TWO entries with
key 40 — the promoted median with the old value and a fresh leaf entry
with the new one — and `Get 40` afterwards returns the OLD value 40,
contradicting `Insert`'s own documentation that an existing key's value
is replaced.  Independently, even a plain overwrite restructures the
tree whenever the root is full (the claim's "no structural change"
fails too): re-inserting key 2 turns the full leaf root into an
internal root of height 2. -/
theorem c4_upsert_inserts_duplicate :
    ((applyOps t2 upsertBuildScript).map
        (fun bt => bt.root.allKeys.count 40) = some 1
      ∧ (applyOps t2 upsertMedianScript).map
          (fun bt => bt.root.allKeys.count 40) = some 2
      ∧ (applyOps t2 upsertMedianScript).map (fun bt => bt.Get 40)
          = some (some (40, true)))
    ∧ ((applyOps t2 overwriteBuildScript).map (fun bt => bt.root.leaf)
          = some true
      ∧ (applyOps t2 overwriteScript).map (fun bt => bt.root.leaf)
          = some false) := by
  rw [upsChain, upsBuildChain, ovChain, ovBuildChain]
  exact ⟨⟨by decide, by decide, by decide⟩, by decide, by decide⟩

end GoglBTree

